import Mathlib

/-!
Verification of the profile-aggregation and flame-graph core of
pprof-analyzer-mcp (package `analyzer`), via a shallow embedding of the Go
source into Lean.

Modelling conventions, applied uniformly:
* Go `int64` / `int` values are modelled as `Int`; two's-complement overflow is
  not modelled (no analysed quantity approaches 2^63 in the properties below).
  Go integer division/modulus truncate toward zero, so they are embedded as
  `Int.tdiv` / `Int.tmod`.
* Go maps are embedded as insertion-ordered association lists; Go's randomized
  map-iteration order followed by `sort.Slice` (an unstable sort) is
  determinized as insertion order followed by a stable sort
  (`List.insertionSort`).  No claim below depends on the order of equal keys.
* Go `float64` arithmetic is modelled over `ℚ`: `goFloat` rounds an exact
  rational to 53 significant binary digits with ties to even (IEEE-754 binary64
  round-to-nearest-even, ignoring overflow/subnormals, which are unreachable at
  the magnitudes involved), and each Go floating-point operation rounds its
  exact rational result through `goFloat`.  Go's `%.2f` formatting rounds the
  (exact) decimal expansion of the binary value to two digits with ties to
  even, which `goFmtF2` reproduces.
* A Go slice read `xs[i]` that the source performs without a bounds check is
  embedded through `Option` (`none` = runtime panic); guarded reads use the
  same guard as the source.
* Functions that return `(T, error)` in Go are embedded as `Except String T`.
-/

namespace PprofAnalyzer

/-! ## The pprof data model (`github.com/google/pprof/profile`), as read by
the analyzer: sample-type descriptors, samples with value vectors, stacks of
locations with (possibly inlined) lines, and string-keyed label maps. -/

/-- A sample-type descriptor: `profile.ValueType` (fields `Type`, `Unit`). -/
structure ValueType where
  type : String
  unit : String
deriving DecidableEq

/-- `profile.Function` (fields `ID`, `Name`, `Filename`). -/
structure GoFunction where
  id : Nat
  name : String
  filename : String
deriving DecidableEq

/-- `profile.Line`: `Function` is a pointer and may be nil. -/
structure GoLine where
  function : Option GoFunction
  line : Int
deriving DecidableEq

/-- `profile.Location` (fields `Address`, `Line`). -/
structure GoLocation where
  address : Nat
  line : List GoLine
deriving DecidableEq

/-- `profile.Sample`: value vector, stack (innermost frame first), labels.
`Label` is a `map[string][]string`, embedded as an association list. -/
structure Sample where
  location : List GoLocation
  value : List Int
  label : List (String × List String)
deriving DecidableEq

/-- `profile.Profile`, restricted to the fields the analyzer reads. -/
structure Profile where
  sampleType : List ValueType
  sample : List Sample
deriving DecidableEq

/-! ## Go `float64` and `fmt` formatting model -/

/-- Round a rational to the nearest integer, ties to even (the rounding used
both by IEEE-754 binary64 operations and by Go's fixed-precision decimal
formatting). -/
def roundHalfEven (q : ℚ) : ℤ :=
  let n := ⌊q⌋
  let frac := q - n
  if frac < 1/2 then n
  else if 1/2 < frac then n + 1
  else if n % 2 = 0 then n else n + 1

/-- Round a positive rational to 53 significant binary digits, ties to even. -/
def goFloatPos (q : ℚ) : ℚ :=
  let e : ℤ := Int.log 2 q
  (roundHalfEven (q * 2 ^ (52 - e)) : ℚ) * 2 ^ (e - 52)

/-- The binary64 value nearest a rational (overflow and subnormal underflow are
not modelled; all quantities in this development stay far inside range). -/
def goFloat (q : ℚ) : ℚ :=
  if q = 0 then 0 else if 0 < q then goFloatPos q else -goFloatPos (-q)

/-- `float64(n)` for an integer `n`. -/
def goFloatOfInt (n : ℤ) : ℚ := goFloat (n : ℚ)

/-- Go `float64` division (exact quotient, rounded to binary64). -/
def goFDiv (x y : ℚ) : ℚ := goFloat (x / y)

/-- Go `float64` addition (exact sum, rounded to binary64). -/
def goFAdd (x y : ℚ) : ℚ := goFloat (x + y)

/-- Two-decimal rendering of a nonnegative rational, ties to even: Go's
`%.2f` on the (exactly represented) value.  Only used on nonnegative inputs,
matching every call site in the source. -/
def goFmtF2 (q : ℚ) : String :=
  let n := roundHalfEven (q * 100)
  let ip := n / 100
  let fp := (n % 100).toNat
  toString ip ++ "." ++ (if fp < 10 then "0" else "") ++ toString fp

/-- The `div`/`exp` loop of `FormatBytes`:
`for n := b / unit; n >= unit; n /= unit { div *= unit; exp++ }`. -/
def fbLoop (n div : ℤ) (exp : ℕ) : ℤ × ℕ :=
  if 1024 ≤ n then fbLoop (n.tdiv 1024) (div * 1024) (exp + 1) else (div, exp)
termination_by n.toNat
decreasing_by
  have h : (1024:ℤ) ≤ n := by assumption
  obtain ⟨k, rfl⟩ : ∃ k : ℕ, n = (k:ℤ) := ⟨n.toNat, by omega⟩
  have he : (k:ℤ).tdiv 1024 = ((k / 1024 : ℕ) : ℤ) := rfl
  rw [he]
  have : k / 1024 < k := Nat.div_lt_self (by omega) (by omega)
  simp only [Int.toNat_natCast]
  omega

/-- The magnitude letter `"KMGTPE"[exp]`; the source indexes the string
directly (a panic for `exp ≥ 6`, unreachable for `int64` inputs). -/
def fbLetter (exp : ℕ) : Char := "KMGTPE".toList.getD exp '?'

/-- `analyzer.FormatBytes` (utils): render a byte count in 1024-based units.
`b < 1024` renders as `"%d B"`; otherwise `"%.2f %cB"` of
`float64(b)/float64(div)`. -/
def FormatBytes (b : ℤ) : String :=
  if b < 1024 then toString b ++ " B"
  else
    let p := fbLoop (b.tdiv 1024) 1024 0
    goFmtF2 (goFDiv (goFloatOfInt b) (goFloatOfInt p.1)) ++ " " ++
      String.mk [fbLetter p.2] ++ "B"

/-- `analyzer.FormatSampleValue` (utils): human-readable sample values.
For `"nanoseconds"` the source converts through `time.Duration`:
`Seconds()` is `float64(d/1e9) + float64(d%1e9)/1e9` (Go integer division
truncates), `Milliseconds()`/`Microseconds()` are integer divisions. -/
def FormatSampleValue (value : ℤ) (unit : String) : String :=
  if unit == "nanoseconds" then
    if 1000000000 ≤ value then
      goFmtF2 (goFAdd (goFloatOfInt (value.tdiv 1000000000))
        (goFDiv (goFloatOfInt (value.tmod 1000000000)) (goFloatOfInt 1000000000))) ++ "s"
    else if 1000000 ≤ value then
      goFmtF2 (goFloatOfInt (value.tdiv 1000000)) ++ "ms"
    else if 1000 ≤ value then
      goFmtF2 (goFloatOfInt (value.tdiv 1000)) ++ "us"
    else toString value ++ "ns"
  else if unit == "count" then toString value
  else toString value ++ " " ++ unit

/-! ## Shared helpers: Go maps as insertion-ordered association lists,
index-resolution loops, label lookup -/

/-- `m[k] += v` on a Go map embedded as an insertion-ordered association
list: update in place if present, append otherwise. -/
def bump (m : List (String × Int)) (k : String) (v : Int) : List (String × Int) :=
  if m.any (fun p => p.1 == k) then
    m.map (fun p => if p.1 == k then (p.1, p.2 + v) else p)
  else m ++ [(k, v)]

/-- Go map read with zero value: `m[k]` (0 when absent). -/
def lookup0 (m : List (String × Int)) (k : String) : Int :=
  match m.find? (fun p => p.1 == k) with
  | some p => p.2
  | none => 0

/-- A `for i, st := range ...` scan that assigns the index on every match and
never breaks: yields the LAST matching index (the shape of the `inuse_space`
scans in `heap.go` / `memory_leak.go` and of the first scan in `allocs.go`). -/
def lastMatchIdx (pred : ValueType → Bool) (sts : List ValueType) : Option Nat :=
  sts.enum.foldl (fun acc p => if pred p.2 then some p.1 else acc) none

/-- The same scan with `break` on first match. -/
def firstMatchIdx (pred : ValueType → Bool) (sts : List ValueType) : Option Nat :=
  sts.findIdx? pred

/-- Label-derived type name: key `"type"` first, then `"object"`, keeping the
first value of a multi-valued label; `dflt` when absent (the flame-graph
builder passes `""`, the heap/leak analyses pass `"unknown"`).  The source
guards with `len(sample.Label) > 0` and checks `ok && len(labels) > 0`. -/
def labelTypeName (s : Sample) (dflt : String) : String :=
  if s.label.isEmpty then dflt
  else
    match s.label.find? (fun p => p.1 == "type") with
    | some (_, t :: _) => t
    | _ =>
      match s.label.find? (fun p => p.1 == "object") with
      | some (_, o :: _) => o
      | _ => dflt

/-- First line of a location carrying a non-nil function, with its line
number: the `for _, line := range loc.Line { if line.Function != nil ...
break }` loop of the flat aggregators. -/
def firstFnLine (loc : GoLocation) : Option (GoFunction × Int) :=
  loc.line.findSome? (fun l => l.function.map (fun f => (f, l.line)))

/-! ## Flame-graph construction (`flamegraph.go`) -/

/-- The final tree node (`FlameGraphNode` in `types.go`, with the fields the
current `flamegraph.go` populates: name, value, formatted value, self value,
object count / average size / type for memory profiles, source position,
children). -/
inductive FlameGraphNode : Type where
  | mk (name : String) (value : Int) (valueFormatted : String) (selfValue : Int)
       (objectCount : Int) (avgSize : Int) (avgSizeFormatted : String)
       (typ : String) (filePath : String) (lineNum : Int)
       (children : List FlameGraphNode) : FlameGraphNode

def FlameGraphNode.name : FlameGraphNode → String
  | .mk n _ _ _ _ _ _ _ _ _ _ => n

def FlameGraphNode.value : FlameGraphNode → Int
  | .mk _ v _ _ _ _ _ _ _ _ _ => v

def FlameGraphNode.selfValue : FlameGraphNode → Int
  | .mk _ _ _ sv _ _ _ _ _ _ _ => sv

def FlameGraphNode.children : FlameGraphNode → List FlameGraphNode
  | .mk _ _ _ _ _ _ _ _ _ _ cs => cs

/-- Intermediate construction node (`tempNode` in `flamegraph.go`): the key it
was filed under (`nodeKey.funcID`), the creation-time node fields, the
accumulating self value / object count / object type, and the children map
(determinized as an insertion-ordered list). -/
inductive TempNode : Type where
  | mk (key : Nat) (name : String) (filePath : String) (lineNum : Int)
       (selfValue : Int) (objectCount : Int) (objectType : String)
       (children : List TempNode) : TempNode

def TempNode.key : TempNode → Nat
  | .mk k _ _ _ _ _ _ _ => k

def TempNode.selfValue : TempNode → Int
  | .mk _ _ _ _ sv _ _ _ => sv

def TempNode.children : TempNode → List TempNode
  | .mk _ _ _ _ _ _ _ cs => cs

/-- One resolved stack frame of a sample: the function identity taken from the
first `Line` of a `Location` (placeholder for a nil function), plus whether
this location was the sample's innermost frame (`i == 0` in the source). -/
structure Frame where
  funcID : Nat
  funcName : String
  funcFile : String
  funcLine : Int
  isInner : Bool
deriving DecidableEq

/-- Resolve one location to a frame: locations with no line info are skipped
(`continue`); a nil function becomes the placeholder
`unknown @ 0x<addr>` with ID 0. -/
def frameOfLoc (loc : GoLocation) (isInner : Bool) : Option Frame :=
  match loc.line with
  | [] => none
  | line :: _ =>
    let fn := match line.function with
      | some f => f
      | none =>
        { id := 0, name := "unknown @ 0x" ++ String.mk (Nat.toDigits 16 loc.address),
          filename := "" }
    some { funcID := fn.id, funcName := fn.name, funcFile := fn.filename,
           funcLine := line.line, isInner := isInner }

/-- The frames of a stack in storage order (innermost first); only the
location at index 0 can carry `isInner`.  The builder walks these in reverse
(outermost to innermost). -/
def framesOfStack (locs : List GoLocation) : List Frame :=
  match locs with
  | [] => []
  | loc0 :: rest =>
    (frameOfLoc loc0 true).toList ++ rest.filterMap (fun l => frameOfLoc l false)

/-- The `i == 0` update: add the sample's value (and, for memory profiles,
object count and first-seen type label) to the innermost frame's node. -/
def innerUpdate (isMem : Bool) (v objCount : Int) (typeName : String)
    (f : Frame) (t : TempNode) : TempNode :=
  match t with
  | .mk k n fp ln sv oc ot cs =>
    if f.isInner then
      if isMem ∧ 0 < objCount then
        .mk k n fp ln (sv + v) (oc + objCount)
          (if typeName ≠ "" ∧ ot = "" then typeName else ot) cs
      else .mk k n fp ln (sv + v) oc ot cs
    else t

/-- A freshly created child node for frame `f` (`&tempNode{...}` in the
source; `objectType` starts as the creating sample's type label). -/
def freshChild (typeName : String) (f : Frame) : TempNode :=
  .mk f.funcID f.funcName f.funcFile f.funcLine 0 0 typeName []

/-- Update the first child carrying the given key (the children lists built
here always have pairwise-distinct keys, mirroring the Go map). -/
def updateFirst (key : Nat) (g : TempNode → TempNode) : List TempNode → List TempNode
  | [] => []
  | c :: cs => if c.key == key then g c :: cs else c :: updateFirst key g cs

/-- Walk one sample's frames down the tree, creating/updating child nodes
keyed by function ID (the per-sample inner loop of `BuildFlameGraphTree`). -/
def insertFrames (isMem : Bool) (v objCount : Int) (typeName : String) :
    List Frame → TempNode → TempNode
  | [], t => t
  | f :: rest, t =>
    match t with
    | .mk k n fp ln sv oc ot cs =>
      let descend := fun c =>
        insertFrames isMem v objCount typeName rest
          (innerUpdate isMem v objCount typeName f c)
      let cs' :=
        if cs.any (fun c => c.key == f.funcID) then
          updateFirst f.funcID descend cs
        else cs ++ [descend (freshChild typeName f)]
      .mk k n fp ln sv oc ot cs'

/-- State of the sample loop: the root under construction plus the running
`totalSampleValue` and `totalObjectCount`. -/
structure BuildState where
  root : TempNode
  totalSampleValue : Int
  totalObjectCount : Int

/-- One iteration of `for _, sample := range p.Sample`.  The unguarded read
`sample.Value[valueIndex]` is a panic (`none`) when the vector is too short;
zero-valued samples are skipped entirely. -/
def buildStep (valueIndex : Nat) (isMem : Bool) (objectsIndex : Option Nat)
    (st : BuildState) (s : Sample) : Option BuildState :=
  match s.value.get? valueIndex with
  | none => none
  | some v =>
    if v = 0 then some st
    else
      let objCount : Int :=
        match objectsIndex with
        | some oi => if isMem ∧ oi < s.value.length then s.value.getD oi 0 else 0
        | none => 0
      let typeName := if isMem then labelTypeName s "" else ""
      some
        { root := insertFrames isMem v objCount typeName
            (framesOfStack s.location).reverse st.root,
          totalSampleValue := st.totalSampleValue + v,
          totalObjectCount := st.totalObjectCount + objCount }

/-- The whole sample loop. -/
def buildSamples (valueIndex : Nat) (isMem : Bool) (objectsIndex : Option Nat) :
    List Sample → BuildState → Option BuildState
  | [], st => some st
  | s :: rest, st =>
    match buildStep valueIndex isMem objectsIndex st s with
    | none => none
    | some st' => buildSamples valueIndex isMem objectsIndex rest st'

mutual
/-- Cumulative value of a construction node: self value plus all
descendants' (the return value of `calculateTotalValueAndBuildTree`). -/
def calcTotal : TempNode → Int
  | .mk _ _ _ _ sv _ _ cs => sv + calcTotalList cs

def calcTotalList : List TempNode → Int
  | [] => 0
  | c :: cs => calcTotal c + calcTotalList cs
end

mutual
/-- The `FlameGraphNode` that `calculateTotalValueAndBuildTree` produces for a
(non-root) construction node: value = cumulative total, formatted per profile
kind, memory enrichment when applicable, children filtered to positive
totals.  Go integer division truncates (`Int.tdiv`). -/
def buildChildNode (isMem : Bool) (unit : String) : TempNode → FlameGraphNode
  | .mk _ n fp ln sv oc ot cs =>
    let ct := sv + calcTotalList cs
    FlameGraphNode.mk n ct
      (if isMem then FormatBytes ct
       else if unit == "nanoseconds" then FormatSampleValue ct unit else "")
      sv
      (if isMem then oc else 0)
      (if isMem ∧ 0 < oc then ct.tdiv oc else 0)
      (if isMem ∧ 0 < oc then FormatBytes (ct.tdiv oc) else "")
      (if isMem ∧ ot ≠ "" then ot else "")
      fp ln
      (keptChildren isMem unit cs)

/-- Children surviving the `childTotal > 0` filter, in construction order. -/
def keptChildren (isMem : Bool) (unit : String) : List TempNode → List FlameGraphNode
  | [] => []
  | c :: cs =>
    let rest := keptChildren isMem unit cs
    if 0 < calcTotal c then buildChildNode isMem unit c :: rest else rest
end

/-- The root node assembled at the end of `BuildFlameGraphTree`: its value is
`totalSampleValue` (assigned directly, not recomputed), its children are the
surviving children of the construction root, and memory enrichment uses the
loop's `totalObjectCount`. -/
def finishRoot (isMem : Bool) (unit : String) (st : BuildState) : FlameGraphNode :=
  let tv := st.totalSampleValue
  let toc := st.totalObjectCount
  FlameGraphNode.mk "root" tv
    (if isMem then FormatBytes tv
     else if unit == "nanoseconds" then FormatSampleValue tv unit else "")
    st.root.selfValue
    (if isMem ∧ 0 < toc then toc else 0)
    (if isMem ∧ 0 < toc then tv.tdiv toc else 0)
    (if isMem ∧ 0 < toc then FormatBytes (tv.tdiv toc) else "")
    "" "" 0
    (keptChildren isMem unit st.root.children)

mutual
/-- `sortChildrenByValue`: recursively order every children list descending by
`value` (Go's unstable `sort.Slice` determinized as a stable sort; the key is
unchanged by the recursion, so sorting before or after recursing agrees). -/
def sortTree : FlameGraphNode → FlameGraphNode
  | .mk n v vf sv oc avs avsf ty fp ln cs =>
    .mk n v vf sv oc avs avsf ty fp ln
      (List.insertionSort (fun a b => b.value ≤ a.value) (sortTreeList cs))

def sortTreeList : List FlameGraphNode → List FlameGraphNode
  | [] => []
  | c :: cs => sortTree c :: sortTreeList cs
end

/-- Memory-profile detection of `BuildFlameGraphTree`: unit `"bytes"` and an
allocation/in-use type name. -/
def isMemoryValueType (vt : ValueType) : Bool :=
  vt.unit == "bytes" && (vt.type == "inuse_space" || vt.type == "alloc_space" ||
    vt.type == "alloc" || vt.type == "allocation")

/-- The companion object-count index search of `BuildFlameGraphTree`
(first match, the loop breaks). -/
def findObjectsIndex (sts : List ValueType) : Option Nat :=
  sts.findIdx? (fun st =>
    (st.type == "inuse_objects" || st.type == "alloc_objects") && st.unit == "count")

/-- `analyzer.BuildFlameGraphTree`.  `none` models a runtime panic (an
unchecked `sample.Value[valueIndex]` read on a too-short vector);
`some (.error e)` the error return for an out-of-range index;
`some (.ok t)` the constructed tree. -/
def BuildFlameGraphTree (p : Profile) (valueIndex : Int) :
    Option (Except String FlameGraphNode) :=
  if valueIndex < 0 ∨ (p.sampleType.length : Int) ≤ valueIndex then
    some (.error ("invalid value index " ++ toString valueIndex ++
      " for profile with " ++ toString p.sampleType.length ++ " sample types"))
  else
    let vi := valueIndex.toNat
    let vt := p.sampleType.getD vi ⟨"", ""⟩
    let isMem := isMemoryValueType vt
    let objectsIndex := if isMem then findObjectsIndex p.sampleType else none
    let init : BuildState := ⟨TempNode.mk 0 "root" "" 0 0 0 "" [], 0, 0⟩
    match buildSamples vi isMem objectsIndex p.sample init with
    | none => none
    | some st => some (.ok (sortTree (finishRoot isMem vt.unit st)))

/-- Sum of the `value` fields of a list of flame nodes. -/
def sumValues : List FlameGraphNode → Int
  | [] => 0
  | c :: cs => c.value + sumValues cs

mutual
/-- The structural invariant claimed for flame trees: at every node,
`value = selfValue + Σ children.value`. -/
def flameInvB : FlameGraphNode → Bool
  | .mk _ v _ sv _ _ _ _ _ _ cs => (v == sv + sumValues cs) && flameInvListB cs

def flameInvListB : List FlameGraphNode → Bool
  | [] => true
  | c :: cs => flameInvB c && flameInvListB cs
end

mutual
/-- Every self value in the construction tree is nonnegative (holds whenever
the selected sample values are nonnegative). -/
def allSelfNonneg : TempNode → Bool
  | .mk _ _ _ _ sv _ _ cs => decide (0 ≤ sv) && allSelfNonnegList cs

def allSelfNonnegList : List TempNode → Bool
  | [] => true
  | c :: cs => allSelfNonneg c && allSelfNonnegList cs
end

/-! ## Flat aggregation (`heap.go`, `allocs.go`) -/

def isInuseSpaceBytes (st : ValueType) : Bool :=
  st.type == "inuse_space" && st.unit == "bytes"

def isInuseObjectsCount (st : ValueType) : Bool :=
  st.type == "inuse_objects" && st.unit == "count"

def isAllocSpaceBytes (st : ValueType) : Bool :=
  st.type == "alloc_space" && st.unit == "bytes"

def isAllocObjectsCount (st : ValueType) : Bool :=
  st.type == "alloc_objects" && st.unit == "count"

/-- Heap value-index resolution (`AnalyzeHeapProfile` step 1): a no-`break`
scan for `inuse_space`/`bytes` (last match wins), then a `break` scan for
`alloc_space`/`bytes`, then the last declared sample type; `none` (the error
return) only when the list is empty. -/
def resolveHeapValueIndex (sts : List ValueType) : Option Nat :=
  match lastMatchIdx isInuseSpaceBytes sts with
  | some i => some i
  | none =>
    match firstMatchIdx isAllocSpaceBytes sts with
    | some i => some i
    | none => if sts.isEmpty then none else some (sts.length - 1)

/-- Heap object-count index: no-`break` scan for `inuse_objects`/`count`,
falling back to a `break` scan for `alloc_objects`/`count`. -/
def resolveHeapObjectsIndex (sts : List ValueType) : Option Nat :=
  match lastMatchIdx isInuseObjectsCount sts with
  | some i => some i
  | none => firstMatchIdx isAllocObjectsCount sts

/-- Allocs value-index resolution (`AnalyzeAllocsProfile` step 1): no-`break`
scan for `alloc_space`/`bytes`, then a `break` scan for
`alloc`/`allocation` with unit `bytes`, then index 0; `none` only when the
list is empty. -/
def resolveAllocsValueIndex (sts : List ValueType) : Option Nat :=
  match lastMatchIdx isAllocSpaceBytes sts with
  | some i => some i
  | none =>
    match firstMatchIdx
        (fun st => (st.type == "alloc" || st.type == "allocation") && st.unit == "bytes") sts with
    | some i => some i
    | none => if sts.isEmpty then none else some 0

/-- Allocs object-count index: no-`break` scan for `alloc_objects`/`count`. -/
def resolveAllocsObjectsIndex (sts : List ValueType) : Option Nat :=
  lastMatchIdx isAllocObjectsCount sts

/-- Aggregation state of the heap sample loop: six Go maps plus the running
totals. -/
structure HeapAgg where
  funcValue : List (String × Int)
  allocSiteValue : List (String × Int)
  funcObjects : List (String × Int)
  allocSiteObjects : List (String × Int)
  typeValue : List (String × Int)
  typeObjects : List (String × Int)
  totalValue : Int
  totalObjects : Int

def HeapAgg.initial : HeapAgg := ⟨[], [], [], [], [], [], 0, 0⟩

/-- The allocation-site key `fmt.Sprintf("%s at %s:%d", ...)`. -/
def siteKeyOf (fn : GoFunction) (lineNo : Int) : String :=
  fn.name ++ " at " ++ fn.filename ++ ":" ++ toString lineNo

/-- One iteration of the heap sample loop: guarded by
`len(s.Location) > 0 && len(s.Value) > valueIndex`; the guarded sample's
value always enters the grand total and the by-type map, and enters the
by-function/by-site maps only when the innermost location yields a non-nil
function. -/
def heapStep (vi : Nat) (oi : Option Nat) (a : HeapAgg) (s : Sample) : HeapAgg :=
  if s.location ≠ [] ∧ vi < s.value.length then
    let v := s.value.getD vi 0
    let objCount : Int :=
      match oi with
      | some o => if o < s.value.length then s.value.getD o 0 else 0
      | none => 0
    let typeName := labelTypeName s "unknown"
    let a :=
      { a with
        totalValue := a.totalValue + v,
        totalObjects := a.totalObjects + objCount,
        typeValue := bump a.typeValue typeName v,
        typeObjects :=
          if 0 < objCount then bump a.typeObjects typeName objCount else a.typeObjects }
    match s.location with
    | [] => a
    | loc :: _ =>
      match firstFnLine loc with
      | none => a
      | some (fn, lineNo) =>
        { a with
          funcValue := bump a.funcValue fn.name v,
          funcObjects :=
            if 0 < objCount then bump a.funcObjects fn.name objCount else a.funcObjects,
          allocSiteValue := bump a.allocSiteValue (siteKeyOf fn lineNo) v,
          allocSiteObjects :=
            if 0 < objCount then bump a.allocSiteObjects (siteKeyOf fn lineNo) objCount
            else a.allocSiteObjects }
  else a

/-- Stable descending sort on the aggregated value (`sort.Slice` with
`stats[i].value > stats[j].value`, determinized as in the module comment). -/
def sortStatsDesc (l : List (String × Int)) : List (String × Int) :=
  List.insertionSort (fun a b => b.2 ≤ a.2) l

/-- The same for (key, value, objectCount) triples. -/
def sortStats3Desc (l : List (String × Int × Int)) : List (String × Int × Int) :=
  List.insertionSort (fun a b => b.2.1 ≤ a.2.1) l

/-- Everything the heap analysis derives before formatting: the sorted stat
sequences, the rows each output section actually emits, and the totals. -/
structure HeapReport where
  valueIndex : Nat
  valueType : String
  valueUnit : String
  totalValue : Int
  totalObjects : Int
  funcStats : List (String × Int)
  siteStats : List (String × Int × Int)
  typeStats : List (String × Int × Int)
  funcRows : List (String × Int)
  siteRows : List (String × Int × Int)
  typeRows : List (String × Int × Int)

/-- `analyzer.AnalyzeHeapProfile`, up to presentation: index resolution,
aggregation, sorting, and the row truncation shared by the text and JSON
formats (`limit` from the by-function stats, the by-site and by-type limits
each capped by `limit`; the by-type section is emitted only when the
top-ranked type is not `"unknown"`). -/
def AnalyzeHeapProfile (p : Profile) (topN : Int) : Except String HeapReport :=
  match resolveHeapValueIndex p.sampleType with
  | none => .error "无法从 profile 样本类型中确定值类型 (例如 inuse_space bytes)"
  | some vi =>
    let oi := resolveHeapObjectsIndex p.sampleType
    let vt := p.sampleType.getD vi ⟨"", ""⟩
    let agg := p.sample.foldl (heapStep vi oi) HeapAgg.initial
    let funcStats := sortStatsDesc agg.funcValue
    let siteStats :=
      sortStats3Desc (agg.allocSiteValue.map fun q => (q.1, q.2, lookup0 agg.allocSiteObjects q.1))
    let typeStats :=
      sortStats3Desc (agg.typeValue.map fun q => (q.1, q.2, lookup0 agg.typeObjects q.1))
    let limit : Int := if topN > (funcStats.length : Int) then funcStats.length else topN
    let siteLimit : Int := if limit > (siteStats.length : Int) then siteStats.length else limit
    let typeLimit : Int := if limit > (typeStats.length : Int) then typeStats.length else limit
    .ok
      { valueIndex := vi, valueType := vt.type, valueUnit := vt.unit,
        totalValue := agg.totalValue, totalObjects := agg.totalObjects,
        funcStats := funcStats, siteStats := siteStats, typeStats := typeStats,
        funcRows := funcStats.take limit.toNat,
        siteRows := siteStats.take siteLimit.toNat,
        typeRows :=
          match typeStats with
          | [] => []
          | t0 :: _ => if t0.1 ≠ "unknown" then typeStats.take typeLimit.toNat else [] }

/-- Aggregation state of the allocs sample loop (no by-type maps). -/
structure AllocsAgg where
  funcValue : List (String × Int)
  allocSiteValue : List (String × Int)
  funcObjects : List (String × Int)
  allocSiteObjects : List (String × Int)
  totalValue : Int
  totalObjects : Int

def AllocsAgg.initial : AllocsAgg := ⟨[], [], [], [], 0, 0⟩

/-- One iteration of the allocs sample loop (same guard and attribution as
the heap loop, without type aggregation). -/
def allocsStep (vi : Nat) (oi : Option Nat) (a : AllocsAgg) (s : Sample) : AllocsAgg :=
  if s.location ≠ [] ∧ vi < s.value.length then
    let v := s.value.getD vi 0
    let objCount : Int :=
      match oi with
      | some o => if o < s.value.length then s.value.getD o 0 else 0
      | none => 0
    let a :=
      { a with totalValue := a.totalValue + v, totalObjects := a.totalObjects + objCount }
    match s.location with
    | [] => a
    | loc :: _ =>
      match firstFnLine loc with
      | none => a
      | some (fn, lineNo) =>
        { a with
          funcValue := bump a.funcValue fn.name v,
          funcObjects :=
            if 0 < objCount then bump a.funcObjects fn.name objCount else a.funcObjects,
          allocSiteValue := bump a.allocSiteValue (siteKeyOf fn lineNo) v,
          allocSiteObjects :=
            if 0 < objCount then bump a.allocSiteObjects (siteKeyOf fn lineNo) objCount
            else a.allocSiteObjects }
  else a

/-- The allocs analysis result, up to presentation. -/
structure AllocsReport where
  valueIndex : Nat
  valueType : String
  valueUnit : String
  totalValue : Int
  totalObjects : Int
  funcStats : List (String × Int)
  siteStats : List (String × Int × Int)
  funcRows : List (String × Int)
  siteRows : List (String × Int × Int)

/-- `analyzer.AnalyzeAllocsProfile`, up to presentation (same truncation
scheme as the heap analysis, without a by-type section). -/
def AnalyzeAllocsProfile (p : Profile) (topN : Int) : Except String AllocsReport :=
  match resolveAllocsValueIndex p.sampleType with
  | none => .error "could not determine value type from profile sample types (e.g., alloc_space bytes)"
  | some vi =>
    let oi := resolveAllocsObjectsIndex p.sampleType
    let vt := p.sampleType.getD vi ⟨"", ""⟩
    let agg := p.sample.foldl (allocsStep vi oi) AllocsAgg.initial
    let funcStats := sortStatsDesc agg.funcValue
    let siteStats :=
      sortStats3Desc (agg.allocSiteValue.map fun q => (q.1, q.2, lookup0 agg.allocSiteObjects q.1))
    let limit : Int := if topN > (funcStats.length : Int) then funcStats.length else topN
    let siteLimit : Int := if limit > (siteStats.length : Int) then siteStats.length else limit
    .ok
      { valueIndex := vi, valueType := vt.type, valueUnit := vt.unit,
        totalValue := agg.totalValue, totalObjects := agg.totalObjects,
        funcStats := funcStats, siteStats := siteStats,
        funcRows := funcStats.take limit.toNat,
        siteRows := siteStats.take siteLimit.toNat }

/-! ## Snapshot-diff leak detection (`memory_leak.go`) -/

/-- One iteration of the per-profile aggregation loop of
`DetectPotentialMemoryLeaks`: by-type memory and object-count maps, guarded
like the flat aggregators. -/
def inuseStep (vi : Nat) (oi : Option Nat)
    (a : List (String × Int) × List (String × Int)) (s : Sample) :
    List (String × Int) × List (String × Int) :=
  if s.location ≠ [] ∧ vi < s.value.length then
    let v := s.value.getD vi 0
    let objCount : Int :=
      match oi with
      | some o => if o < s.value.length then s.value.getD o 0 else 0
      | none => 0
    let typeName := labelTypeName s "unknown"
    (bump a.1 typeName v,
     if 0 < objCount then bump a.2 typeName objCount else a.2)
  else a

/-- Per-type (memory, objects) aggregation of one profile. -/
def inuseAgg (p : Profile) (vi : Nat) (oi : Option Nat) :
    List (String × Int) × List (String × Int) :=
  p.sample.foldl (inuseStep vi oi) ([], [])

/-- The growth-percent computation of `DetectPotentialMemoryLeaks`
(`(float64(growth)/float64(oldVal))*100`, 100 for a new positive type, 0
otherwise).  The `float64` division is modelled exactly over `ℚ`; every
property proved about it below concerns only the division-free branches or
sign information, on which binary64 rounding and exact arithmetic agree. -/
def growthPercentQ (oldVal growth : Int) : ℚ :=
  if 0 < oldVal then ((growth : ℚ) / (oldVal : ℚ)) * 100
  else if 0 < growth then 100 else 0

/-- One per-type leak candidate (`growthStat` in `memory_leak.go`). -/
structure GrowthStat where
  typ : String
  oldValue : Int
  newValue : Int
  growth : Int
  growthPercent : ℚ
  oldCount : Int
  newCount : Int
  countGrowth : Int
  countGrowthPct : ℚ
deriving DecidableEq

/-- `analyzer.DetectPotentialMemoryLeaks`, up to presentation: returns the
threshold-filtered candidates sorted by absolute growth, together with the
rows the report displays (the sorted list truncated to the limit).
Defaults: threshold `0.1` when ≤ 0, limit `10` when ≤ 0. -/
def DetectPotentialMemoryLeaks (oldP newP : Profile) (threshold : ℚ) (limit : Int) :
    Except String (List GrowthStat × List GrowthStat) :=
  let thr := if threshold ≤ 0 then 1/10 else threshold
  let lim := if limit ≤ 0 then 10 else limit
  match lastMatchIdx isInuseSpaceBytes oldP.sampleType with
  | none => .error "could not find inuse_space sample type in the old profile"
  | some oldVi =>
    let oldAgg := inuseAgg oldP oldVi (lastMatchIdx isInuseObjectsCount oldP.sampleType)
    match lastMatchIdx isInuseSpaceBytes newP.sampleType with
    | none => .error "could not find inuse_space sample type in the new profile"
    | some newVi =>
      let newAgg := inuseAgg newP newVi (lastMatchIdx isInuseObjectsCount newP.sampleType)
      let stats := newAgg.1.filterMap (fun q =>
        let oldVal := lookup0 oldAgg.1 q.1
        let growth := q.2 - oldVal
        let pct := growthPercentQ oldVal growth
        if thr * 100 ≤ pct then
          let newCount := lookup0 newAgg.2 q.1
          let oldCount := lookup0 oldAgg.2 q.1
          some
            { typ := q.1, oldValue := oldVal, newValue := q.2, growth := growth,
              growthPercent := pct, oldCount := oldCount, newCount := newCount,
              countGrowth := newCount - oldCount,
              countGrowthPct := growthPercentQ oldCount (newCount - oldCount) }
        else none)
      let sorted := List.insertionSort (fun a b => b.growth ≤ a.growth) stats
      let displayLimit : Int := if lim > (sorted.length : Int) then sorted.length else lim
      .ok (sorted, sorted.take displayLimit.toNat)

/-! ## Claim-side reference definitions -/

/-- The spec's reading of the heap index resolution (claim C8): the FIRST
`inuse_space`/`bytes` sample type, else the first `alloc_space`/`bytes`,
else the last declared.  Compared below with `resolveHeapValueIndex`, which
the source implements with a no-`break` first scan. -/
def resolveHeapValueIndexFirstMatch (sts : List ValueType) : Option Nat :=
  match firstMatchIdx isInuseSpaceBytes sts with
  | some i => some i
  | none =>
    match firstMatchIdx isAllocSpaceBytes sts with
    | some i => some i
    | none => if sts.isEmpty then none else some (sts.length - 1)

/-- Default used with `List.getD` in index-characterization statements (never
read at in-range indices). -/
def stDefault : ValueType := ⟨"", ""⟩

/-- The claim's reading of `FormatBytes` (claim C9): render in 1024-based
binary units with two-decimal precision and a magnitude letter followed by
`"B"`, scaling by the largest power of 1024 not exceeding the value. -/
def formatBytesTwoDec (b : ℤ) : String :=
  let k := Nat.log 1024 b.toNat
  goFmtF2 (goFDiv (goFloatOfInt b) (goFloatOfInt (1024 ^ k))) ++ " " ++
    String.mk [fbLetter (k - 1)] ++ "B"

/-- Claim-side reference total (claim C2): the sum of the selected value over
EVERY sample whose value vector contains the index, regardless of location
information. -/
def selectedSum (p : Profile) (vi : ℕ) : Int :=
  ((p.sample.filter (fun s => decide (vi < s.value.length))).map
    (fun s => s.value.getD vi 0)).sum

/-- The total the flat aggregators actually accumulate: only samples passing
the `len(s.Location) > 0 && len(s.Value) > valueIndex` guard. -/
def guardedSelectedSum (p : Profile) (vi : ℕ) : Int :=
  ((p.sample.filter (fun s => !s.location.isEmpty && decide (vi < s.value.length))).map
    (fun s => s.value.getD vi 0)).sum

/-- The sum of the selected value over the samples with a non-zero selected
value (the flame-graph root total of claim C1). -/
def nonzeroSelectedSum (p : Profile) (vi : ℕ) : Int :=
  ((p.sample.filter (fun s => !(s.value.getD vi 0 == 0))).map
    (fun s => s.value.getD vi 0)).sum

/-- Whether a sample's innermost location resolves to a frame (non-empty
`Line` list at stack index 0), so that the flame-graph builder attributes the
sample's value to some node's self value. -/
def innerFrameResolvable (s : Sample) : Bool :=
  match s.location with
  | [] => false
  | loc :: _ => !loc.line.isEmpty

/-! ## Concrete inputs used by counterexamples and witnesses -/

/-- Two `inuse_space`/`bytes` sample types: distinguishes first-match from
last-match resolution. -/
def c8Types : List ValueType := [⟨"inuse_space", "bytes"⟩, ⟨"inuse_space", "bytes"⟩]

/-- A profile whose single sample carries value 5 but no locations. -/
def c1NoStackProfile : Profile :=
  ⟨[⟨"samples", "count"⟩], [⟨[], [5], []⟩]⟩

/-- A heap profile whose single sample carries value 7 but no locations. -/
def c2NoLocationProfile : Profile :=
  ⟨[⟨"inuse_space", "bytes"⟩], [⟨[], [7], []⟩]⟩

/-- A resolvable function/location pair for small test profiles. -/
def demoFn : GoFunction := ⟨1, "allocF", "a.go"⟩

def demoLoc : GoLocation := ⟨1, [⟨some demoFn, 5⟩]⟩

/-- A heap profile with one function but two label-derived types: its
distinct type-key count (2) exceeds its distinct function-key count (1). -/
def c7Profile : Profile :=
  ⟨[⟨"inuse_space", "bytes"⟩],
   [⟨[demoLoc], [5], [("type", ["T1"])]⟩,
    ⟨[demoLoc], [3], [("type", ["T2"])]⟩]⟩

/-- A heap profile whose sample has a location but no resolvable function. -/
def nilFnProfile : Profile :=
  ⟨[⟨"inuse_space", "bytes"⟩], [⟨[⟨7, [⟨none, 0⟩]⟩], [9], []⟩]⟩

/-- A two-frame CPU profile (`main` calling `foo`, 1000ns at `foo`). -/
def demoFnMain : GoFunction := ⟨10, "main", "main.go"⟩

def demoFnFoo : GoFunction := ⟨11, "foo", "main.go"⟩

def demoLocMain : GoLocation := ⟨100, [⟨some demoFnMain, 10⟩]⟩

def demoLocFoo : GoLocation := ⟨200, [⟨some demoFnFoo, 20⟩]⟩

def demoCpuSample : Sample := ⟨[demoLocFoo, demoLocMain], [1000], []⟩

def demoCpuProfile : Profile := ⟨[⟨"cpu", "nanoseconds"⟩], [demoCpuSample]⟩

/-- The same profile with an extra zero-valued sample prepended. -/
def demoCpuProfileWithZero : Profile :=
  ⟨[⟨"cpu", "nanoseconds"⟩], [⟨[demoLocFoo, demoLocMain], [0], []⟩, demoCpuSample]⟩

/-- Two declared sample types but a sample whose value vector has length 1:
reading index 1 is in range for the types yet out of range for the sample. -/
def shortValueProfile : Profile :=
  ⟨[⟨"cpu", "nanoseconds"⟩, ⟨"samples", "count"⟩], [⟨[], [5], []⟩]⟩

/-- Old/new heap snapshots for the leak detector: type `"T"` appears only in
the new snapshot (old value 0), type `"S"` has equal old and new values. -/
def leakOldProfile : Profile :=
  ⟨[⟨"inuse_space", "bytes"⟩], [⟨[demoLoc], [50], [("type", ["S"])]⟩]⟩

def leakNewProfile : Profile :=
  ⟨[⟨"inuse_space", "bytes"⟩],
   [⟨[demoLoc], [50], [("type", ["S"])]⟩, ⟨[demoLoc], [100], [("type", ["T"])]⟩]⟩

/-- A profile declaring sample types but no `inuse_space`/`bytes`. -/
def noInuseProfile : Profile := ⟨[⟨"alloc_space", "bytes"⟩], []⟩

/-! ## Helper lemmas: characterizing the index-resolution scans -/

theorem getD_mem_of_lt {α : Type} (l : List α) (n : ℕ) (d : α) (h : n < l.length) :
    l.getD n d ∈ l := by
  rw [List.getD_eq_getElem?_getD, List.getElem?_eq_getElem h]
  exact List.getElem_mem h

theorem lastMatchIdx_append_singleton (pred : ValueType → Bool) (sts : List ValueType)
    (st : ValueType) :
    lastMatchIdx pred (sts ++ [st]) =
      if pred st then some sts.length else lastMatchIdx pred sts := by
  unfold lastMatchIdx
  rw [List.enum_append, List.foldl_append]
  simp [List.enumFrom]

theorem lastMatchIdx_eq_none_iff (pred : ValueType → Bool) (sts : List ValueType) :
    lastMatchIdx pred sts = none ↔ ∀ st ∈ sts, ¬pred st := by
  induction sts using List.reverseRecOn with
  | nil => simp [lastMatchIdx]
  | append_singleton sts st ih =>
    rw [lastMatchIdx_append_singleton]
    by_cases h : pred st
    · constructor
      · intro hc; rw [if_pos h] at hc; exact absurd hc (by simp)
      · intro hall
        exact absurd (hall st (by simp)) (by simp [h])
    · rw [if_neg h, ih]
      constructor
      · intro hall st' hmem
        rcases List.mem_append.mp hmem with hm | hm
        · exact hall st' hm
        · simp only [List.mem_singleton] at hm
          subst hm; exact h
      · intro hall st' hmem
        exact hall st' (List.mem_append.mpr (Or.inl hmem))

theorem lastMatchIdx_eq_some (pred : ValueType → Bool) (sts : List ValueType) (i : ℕ)
    (h : lastMatchIdx pred sts = some i) :
    i < sts.length ∧ pred (sts.getD i stDefault) ∧
      ∀ j, i < j → j < sts.length → ¬pred (sts.getD j stDefault) := by
  induction sts using List.reverseRecOn generalizing i with
  | nil => simp [lastMatchIdx] at h
  | append_singleton sts st ih =>
    rw [lastMatchIdx_append_singleton] at h
    by_cases hp : pred st
    · simp only [hp, if_true, Option.some.injEq] at h
      subst h
      refine ⟨by simp, ?_, ?_⟩
      · rw [List.getD_append_right sts [st] stDefault _ (le_refl _)]
        simpa using hp
      · intro j hj hj'
        simp only [List.length_append, List.length_singleton] at hj'
        omega
    · simp only [hp, if_false] at h
      obtain ⟨h1, h2, h3⟩ := ih i h
      refine ⟨by simp; omega, ?_, ?_⟩
      · rwa [List.getD_append sts [st] stDefault i h1]
      · intro j hj hj'
        simp only [List.length_append, List.length_singleton] at hj'
        by_cases hjl : j < sts.length
        · rw [List.getD_append sts [st] stDefault j hjl]
          exact h3 j hj hjl
        · have : j = sts.length := by omega
          subst this
          rw [List.getD_append_right sts [st] stDefault _ (le_refl _)]
          simpa using hp

theorem firstMatchIdx_eq_some (pred : ValueType → Bool) (sts : List ValueType) (i : ℕ)
    (h : firstMatchIdx pred sts = some i) :
    i < sts.length ∧ pred (sts.getD i stDefault) ∧
      ∀ j, j < i → ¬pred (sts.getD j stDefault) := by
  induction sts generalizing i with
  | nil => simp [firstMatchIdx] at h
  | cons st sts ih =>
    unfold firstMatchIdx at h
    rw [List.findIdx?_cons] at h
    by_cases hp : pred st
    · simp only [hp, if_true, Option.some.injEq] at h
      subst h
      exact ⟨by simp, by simpa using hp, by omega⟩
    · simp only [hp, if_false] at h
      rw [List.findIdx?_start_succ] at h
      cases hfind : List.findIdx? pred sts 0 with
      | none => rw [hfind] at h; simp at h
      | some k =>
        rw [hfind] at h
        simp at h
        obtain ⟨h1, h2, h3⟩ := ih k hfind
        have hik : i = k + 1 := by omega
        subst hik
        refine ⟨by simp; omega, by simpa using h2, ?_⟩
        intro j hj
        match j with
        | 0 => simpa using hp
        | j + 1 =>
          simp only [List.getD_cons_succ]
          exact h3 j (by omega)

theorem firstMatchIdx_eq_none_iff (pred : ValueType → Bool) (sts : List ValueType) :
    firstMatchIdx pred sts = none ↔ ∀ st ∈ sts, ¬pred st := by
  unfold firstMatchIdx
  simp [List.findIdx?_eq_none_iff]

/-! ## C8: heap value-index resolution -/

/-- C8 counterexample: with two `inuse_space`/`bytes` sample types the heap
analysis resolves index 1 — the scan assigns on every match and never breaks,
so the LAST match wins, not the first as the claim states. -/
theorem heap_value_index_last_match_counterexample :
    resolveHeapValueIndex c8Types = some 1 ∧
    resolveHeapValueIndexFirstMatch c8Types = some 0 ∧
    resolveHeapValueIndex c8Types ≠ resolveHeapValueIndexFirstMatch c8Types := by
  decide

/-- C8 (amended): the heap analysis resolves its value index as the LAST
sample type with name `inuse_space` and unit `bytes`; otherwise the first
with name `alloc_space` and unit `bytes`; otherwise the last declared sample
type; and it reports the unresolvable-metric error exactly when the
sample-type list is empty. -/
theorem heap_value_index_resolution (sts : List ValueType) :
    (resolveHeapValueIndex sts = none ↔ sts = []) ∧
    ∀ i, resolveHeapValueIndex sts = some i →
      i < sts.length ∧
      ((∃ st ∈ sts, isInuseSpaceBytes st) →
        isInuseSpaceBytes (sts.getD i stDefault) ∧
        ∀ j, i < j → j < sts.length → ¬isInuseSpaceBytes (sts.getD j stDefault)) ∧
      ((∀ st ∈ sts, ¬isInuseSpaceBytes st) → (∃ st ∈ sts, isAllocSpaceBytes st) →
        isAllocSpaceBytes (sts.getD i stDefault) ∧
        ∀ j, j < i → ¬isAllocSpaceBytes (sts.getD j stDefault)) ∧
      ((∀ st ∈ sts, ¬isInuseSpaceBytes st) → (∀ st ∈ sts, ¬isAllocSpaceBytes st) →
        i = sts.length - 1) := by
  unfold resolveHeapValueIndex
  cases hlast : lastMatchIdx isInuseSpaceBytes sts with
  | some k =>
    obtain ⟨hk1, hk2, hk3⟩ := lastMatchIdx_eq_some _ _ _ hlast
    constructor
    · constructor
      · intro hc; simp at hc
      · intro hc; subst hc; simp at hk1
    · intro i hi
      simp only [Option.some.injEq] at hi
      subst hi
      refine ⟨hk1, fun _ => ⟨hk2, hk3⟩, ?_, ?_⟩
      · intro hall _
        exact absurd hk2 (hall _ (getD_mem_of_lt _ _ _ hk1))
      · intro hall _
        exact absurd hk2 (hall _ (getD_mem_of_lt _ _ _ hk1))
  | none =>
    have hallinuse := (lastMatchIdx_eq_none_iff _ _).mp hlast
    cases hfirst : firstMatchIdx isAllocSpaceBytes sts with
    | some k =>
      obtain ⟨hk1, hk2, hk3⟩ := firstMatchIdx_eq_some _ _ _ hfirst
      constructor
      · constructor
        · intro hc; simp at hc
        · intro hc; subst hc; simp at hk1
      · intro i hi
        simp only [Option.some.injEq] at hi
        subst hi
        refine ⟨hk1, ?_, fun _ _ => ⟨hk2, hk3⟩, ?_⟩
        · rintro ⟨st, hst, hp⟩
          exact absurd hp (hallinuse st hst)
        · intro _ hallalloc
          exact absurd hk2 (hallalloc _ (getD_mem_of_lt _ _ _ hk1))
    | none =>
      have hallalloc := (firstMatchIdx_eq_none_iff _ _).mp hfirst
      by_cases hemp : sts.isEmpty
      · have : sts = [] := List.isEmpty_iff.mp hemp
        subst this
        constructor
        · simp
        · intro i hi; simp at hi
      · have hne : sts ≠ [] := fun hc => hemp (by simp [hc])
        constructor
        · constructor
          · intro hc
            rw [if_neg (by simpa using hne)] at hc
            simp at hc
          · intro hc; exact absurd hc hne
        · intro i hi
          rw [if_neg (by simpa using hne)] at hi
          simp only [Option.some.injEq] at hi
          subst hi
          have hlen : 0 < sts.length := List.length_pos.mpr hne
          refine ⟨by omega, ?_, ?_, fun _ _ => rfl⟩
          · rintro ⟨st, hst, hp⟩
            exact absurd hp (hallinuse st hst)
          · rintro _ ⟨st, hst, hp⟩
            exact absurd hp (hallalloc st hst)

/-- C8 witness: the amended resolver characterization evaluated on the
two-entry `inuse_space` list (resolved index 1, the last match). -/
theorem heap_value_index_resolution_witness :
    1 < c8Types.length ∧
    ((∃ st ∈ c8Types, isInuseSpaceBytes st) →
      isInuseSpaceBytes (c8Types.getD 1 stDefault) ∧
      ∀ j, 1 < j → j < c8Types.length → ¬isInuseSpaceBytes (c8Types.getD j stDefault)) ∧
    ((∀ st ∈ c8Types, ¬isInuseSpaceBytes st) → (∃ st ∈ c8Types, isAllocSpaceBytes st) →
      isAllocSpaceBytes (c8Types.getD 1 stDefault) ∧
      ∀ j, j < 1 → ¬isAllocSpaceBytes (c8Types.getD j stDefault)) ∧
    ((∀ st ∈ c8Types, ¬isInuseSpaceBytes st) → (∀ st ∈ c8Types, ¬isAllocSpaceBytes st) →
      1 = c8Types.length - 1) :=
  (heap_value_index_resolution c8Types).2 1 (by decide)

/-! ## C4: leak-detector failure condition -/

/-- C4 (confirmed): `DetectPotentialMemoryLeaks` returns an error iff at
least one input profile declares no `inuse_space`/`bytes` sample type; when
both declare one the diff always succeeds. -/
theorem leak_detector_error_iff_missing_inuse (oldP newP : Profile)
    (threshold : ℚ) (limit : Int) :
    ((∃ e, DetectPotentialMemoryLeaks oldP newP threshold limit = .error e) ↔
      (∀ st ∈ oldP.sampleType, ¬isInuseSpaceBytes st) ∨
      (∀ st ∈ newP.sampleType, ¬isInuseSpaceBytes st)) ∧
    ((∃ st ∈ oldP.sampleType, isInuseSpaceBytes st) →
      (∃ st ∈ newP.sampleType, isInuseSpaceBytes st) →
      ∃ res, DetectPotentialMemoryLeaks oldP newP threshold limit = .ok res) := by
  unfold DetectPotentialMemoryLeaks
  cases hold : lastMatchIdx isInuseSpaceBytes oldP.sampleType with
  | none =>
    have hallold := (lastMatchIdx_eq_none_iff _ _).mp hold
    exact ⟨⟨fun _ => Or.inl hallold, fun _ => ⟨_, rfl⟩⟩,
      fun ⟨st, hst, hp⟩ _ => absurd hp (hallold st hst)⟩
  | some oldVi =>
    cases hnew : lastMatchIdx isInuseSpaceBytes newP.sampleType with
    | none =>
      have hallnew := (lastMatchIdx_eq_none_iff _ _).mp hnew
      exact ⟨⟨fun _ => Or.inr hallnew, fun _ => ⟨_, rfl⟩⟩,
        fun _ ⟨st, hst, hp⟩ => absurd hp (hallnew st hst)⟩
    | some newVi =>
      constructor
      · constructor
        · rintro ⟨e, he⟩; simp at he
        · rintro (hall | hall)
          · exact absurd hold (by rw [lastMatchIdx_eq_none_iff _ _ |>.mpr hall]; simp)
          · exact absurd hnew (by rw [lastMatchIdx_eq_none_iff _ _ |>.mpr hall]; simp)
      · intro _ _
        exact ⟨_, rfl⟩

/-- C4 witness: with an old profile lacking `inuse_space` the detector
errors; with both snapshots declaring it, it succeeds. -/
theorem leak_detector_error_iff_missing_inuse_witness :
    ∃ res, DetectPotentialMemoryLeaks leakOldProfile leakNewProfile (1/10) 10 = .ok res :=
  (leak_detector_error_iff_missing_inuse leakOldProfile leakNewProfile (1/10) 10).2
    (by decide) (by decide)

/-! ## Key-uniqueness of map-embedding association lists -/

theorem keys_bump_nodup (m : List (String × Int)) (k : String) (v : Int)
    (h : (m.map Prod.fst).Nodup) : ((bump m k v).map Prod.fst).Nodup := by
  unfold bump
  split
  · have : (m.map (fun p => if p.1 == k then (p.1, p.2 + v) else p)).map Prod.fst
        = m.map Prod.fst := by
      rw [List.map_map]
      apply List.map_congr_left
      intro p _
      show (if p.1 == k then (p.1, p.2 + v) else p).1 = p.1
      split <;> rfl
    rwa [this]
  · rename_i hany
    rw [List.map_append]
    simp only [List.map_cons, List.map_nil]
    rw [List.nodup_append]
    refine ⟨h, List.nodup_singleton k, ?_⟩
    intro a ha hb
    simp only [List.mem_singleton] at hb
    subst hb
    simp only [List.mem_map] at ha
    obtain ⟨p, hp, hpk⟩ := ha
    rw [List.any_eq_true] at hany
    exact hany ⟨p, hp, by simp [hpk]⟩

theorem keys_bump_if_nodup (c : Prop) [Decidable c] (m : List (String × Int))
    (k : String) (v : Int) (h : (m.map Prod.fst).Nodup) :
    (((if c then bump m k v else m).map Prod.fst).Nodup) := by
  split
  · exact keys_bump_nodup m k v h
  · exact h

/-- A fold invariant for plain `List.foldl`. -/
theorem foldl_invariant {α β : Type} {P : α → Prop} (f : α → β → α)
    (hstep : ∀ a b, P a → P (f a b)) :
    ∀ (l : List β) (a : α), P a → P (l.foldl f a) := by
  intro l
  induction l with
  | nil => intro a ha; exact ha
  | cons b l ih => intro a ha; exact ih (f a b) (hstep a b ha)

theorem inuseAgg_keys_nodup (p : Profile) (vi : ℕ) (oi : Option ℕ) :
    (((inuseAgg p vi oi).1.map Prod.fst).Nodup) ∧
    (((inuseAgg p vi oi).2.map Prod.fst).Nodup) := by
  unfold inuseAgg
  have hstep : ∀ (a : List (String × Int) × List (String × Int)) (s : Sample),
      ((a.1.map Prod.fst).Nodup ∧ (a.2.map Prod.fst).Nodup) →
      (((inuseStep vi oi a s).1.map Prod.fst).Nodup ∧
        ((inuseStep vi oi a s).2.map Prod.fst).Nodup) := by
    intro a s ⟨h1, h2⟩
    unfold inuseStep
    split
    · exact ⟨keys_bump_nodup _ _ _ h1, keys_bump_if_nodup _ _ _ _ h2⟩
    · exact ⟨h1, h2⟩
  exact foldl_invariant _ hstep p.sample ([], []) ⟨List.nodup_nil, List.nodup_nil⟩

theorem eq_snd_of_mem_of_keys_nodup {m : List (String × Int)}
    (hn : (m.map Prod.fst).Nodup) {k : String} {v w : Int}
    (h1 : (k, v) ∈ m) (h2 : (k, w) ∈ m) : v = w := by
  induction m with
  | nil => simp at h1
  | cons p m ih =>
    simp only [List.map_cons, List.nodup_cons] at hn
    obtain ⟨hk, hn⟩ := hn
    rcases List.mem_cons.mp h1 with hp1 | hp1 <;> rcases List.mem_cons.mp h2 with hp2 | hp2
    · rw [← hp1] at hp2; exact (Prod.mk.injEq .. ▸ hp2).2.symm
    · exfalso; exact hk (by rw [← hp1]; exact List.mem_map.mpr ⟨(k, w), hp2, rfl⟩)
    · exfalso; exact hk (by rw [← hp2]; exact List.mem_map.mpr ⟨(k, v), hp1, rfl⟩)
    · exact ih hn hp1 hp2

/-! ## Growth-percent computation lemmas -/

theorem growthPercentQ_zero_growth (v : Int) : growthPercentQ v 0 = 0 := by
  unfold growthPercentQ
  split
  · simp
  · simp

theorem growthPercentQ_new_type (v : Int) (h : 0 < v) : growthPercentQ 0 v = 100 := by
  unfold growthPercentQ
  rw [if_neg (by omega), if_pos (by exact_mod_cast h)]

/-! ## C3: growth-percent rules of the leak detector -/

/-- C3 (confirmed): in `DetectPotentialMemoryLeaks`, for a type present in
the new snapshot with aggregated value `newVal`: when its old aggregated
value is 0 and `newVal` is positive, the computed growth percent is 100 and
every candidate reported for that type carries growth percent 100; when old
equals new, the growth percent is 0 and the type can appear among the
reported candidates only if the caller's threshold was ≤ 0 (the source
replaces such thresholds by the positive default 0.1, so in fact it never
appears — the claim's necessary condition holds vacuously). -/
theorem leak_growth_percent_rules (oldP newP : Profile) (threshold : ℚ) (limit : Int)
    (oldVi newVi : ℕ) (t : String) (newVal : Int)
    (hold : lastMatchIdx isInuseSpaceBytes oldP.sampleType = some oldVi)
    (hnew : lastMatchIdx isInuseSpaceBytes newP.sampleType = some newVi)
    (hmem : (t, newVal) ∈
      (inuseAgg newP newVi (lastMatchIdx isInuseObjectsCount newP.sampleType)).1) :
    (lookup0 (inuseAgg oldP oldVi (lastMatchIdx isInuseObjectsCount oldP.sampleType)).1 t = 0 →
      0 < newVal →
      growthPercentQ
        (lookup0 (inuseAgg oldP oldVi (lastMatchIdx isInuseObjectsCount oldP.sampleType)).1 t)
        (newVal -
          lookup0 (inuseAgg oldP oldVi (lastMatchIdx isInuseObjectsCount oldP.sampleType)).1 t)
        = 100 ∧
      ∀ res, DetectPotentialMemoryLeaks oldP newP threshold limit = .ok res →
        ∀ gs ∈ res.1, gs.typ = t → gs.growthPercent = 100) ∧
    (lookup0 (inuseAgg oldP oldVi (lastMatchIdx isInuseObjectsCount oldP.sampleType)).1 t = newVal →
      growthPercentQ
        (lookup0 (inuseAgg oldP oldVi (lastMatchIdx isInuseObjectsCount oldP.sampleType)).1 t)
        (newVal -
          lookup0 (inuseAgg oldP oldVi (lastMatchIdx isInuseObjectsCount oldP.sampleType)).1 t)
        = 0 ∧
      ∀ res, DetectPotentialMemoryLeaks oldP newP threshold limit = .ok res →
        ∀ gs ∈ res.1, gs.typ = t → threshold ≤ 0) := by
  set oldMem := (inuseAgg oldP oldVi (lastMatchIdx isInuseObjectsCount oldP.sampleType)).1
    with holdMem
  set oldVal := lookup0 oldMem t with holdVal
  have hthr : 0 < (if threshold ≤ 0 then (1/10 : ℚ) else threshold) := by
    by_cases hle : threshold ≤ 0
    · rw [if_pos hle]; norm_num
    · rw [if_neg hle]; exact lt_of_not_le hle
  -- Any reported candidate of type `t` was built from the (unique) entry
  -- `(t, newVal)` of the new snapshot's by-type map, and passed the filter.
  have hreport : ∀ res, DetectPotentialMemoryLeaks oldP newP threshold limit = .ok res →
      ∀ gs ∈ res.1, gs.typ = t →
        gs.growthPercent = growthPercentQ oldVal (newVal - oldVal) ∧
        (if threshold ≤ 0 then (1/10 : ℚ) else threshold) * 100 ≤
          growthPercentQ oldVal (newVal - oldVal) := by
    intro res hres gs hgs hty
    unfold DetectPotentialMemoryLeaks at hres
    rw [hold, hnew] at hres
    simp only [Except.ok.injEq] at hres
    subst hres
    dsimp only at hgs
    have hgs' := (List.perm_insertionSort
      (fun a b : GrowthStat => b.growth ≤ a.growth) _).mem_iff.mp hgs
    obtain ⟨q, hq, hfq⟩ := List.mem_filterMap.mp hgs'
    by_cases hcond : (if threshold ≤ 0 then (1/10 : ℚ) else threshold) * 100 ≤
        growthPercentQ (lookup0 oldMem q.1) (q.2 - lookup0 oldMem q.1)
    · rw [if_pos hcond] at hfq
      simp only [Option.some.injEq] at hfq
      have htyq : q.1 = t := by rw [← hfq] at hty; exact hty
      have hkeys := (inuseAgg_keys_nodup newP newVi
        (lastMatchIdx isInuseObjectsCount newP.sampleType)).1
      have hqpair : (t, q.2) ∈
          (inuseAgg newP newVi (lastMatchIdx isInuseObjectsCount newP.sampleType)).1 := by
        rw [← htyq]; exact hq
      have hval : q.2 = newVal := eq_snd_of_mem_of_keys_nodup hkeys hqpair hmem
      constructor
      · rw [← hfq]
        simp only [htyq, hval]
      · rw [holdVal, holdMem, ← htyq, ← hval]; exact hcond
    · rw [if_neg hcond] at hfq
      exact absurd hfq (by simp)
  constructor
  · intro h0 hpos
    have hpct : growthPercentQ oldVal (newVal - oldVal) = 100 := by
      rw [h0, sub_zero]
      exact growthPercentQ_new_type newVal hpos
    refine ⟨hpct, ?_⟩
    intro res hres gs hgs hty
    rw [(hreport res hres gs hgs hty).1, hpct]
  · intro heq
    have hpct : growthPercentQ oldVal (newVal - oldVal) = 0 := by
      rw [heq, sub_self]
      exact growthPercentQ_zero_growth newVal
    refine ⟨hpct, ?_⟩
    intro res hres gs hgs hty
    exfalso
    have := (hreport res hres gs hgs hty).2
    rw [hpct] at this
    nlinarith [hthr]

/-- C3 witness: on concrete snapshots, the new-only type `"T"` (old 0, new
100) computes growth percent 100, and the unchanged type `"S"` (old = new =
50) computes growth percent 0. -/
theorem leak_growth_percent_rules_witness :
    growthPercentQ
      (lookup0 (inuseAgg leakOldProfile 0
        (lastMatchIdx isInuseObjectsCount leakOldProfile.sampleType)).1 "T")
      (100 - lookup0 (inuseAgg leakOldProfile 0
        (lastMatchIdx isInuseObjectsCount leakOldProfile.sampleType)).1 "T") = 100 ∧
    growthPercentQ
      (lookup0 (inuseAgg leakOldProfile 0
        (lastMatchIdx isInuseObjectsCount leakOldProfile.sampleType)).1 "S")
      (50 - lookup0 (inuseAgg leakOldProfile 0
        (lastMatchIdx isInuseObjectsCount leakOldProfile.sampleType)).1 "S") = 0 :=
  ⟨((leak_growth_percent_rules leakOldProfile leakNewProfile (1/10) 10 0 0 "T" 100
      (by decide) (by decide) (by decide)).1 (by decide) (by decide)).1,
   ((leak_growth_percent_rules leakOldProfile leakNewProfile (1/10) 10 0 0 "S" 50
      (by decide) (by decide) (by decide)).2 (by decide)).1⟩

/-! ## C2: grand totals of the flat aggregators -/

theorem heapStep_totalValue (vi : ℕ) (oi : Option ℕ) (a : HeapAgg) (s : Sample) :
    (heapStep vi oi a s).totalValue =
      a.totalValue +
        (if s.location ≠ [] ∧ vi < s.value.length then s.value.getD vi 0 else 0) := by
  unfold heapStep
  by_cases hc : s.location ≠ [] ∧ vi < s.value.length
  · rw [if_pos hc, if_pos hc]
    cases hl : s.location with
    | nil => exact absurd hl hc.1
    | cons loc rest =>
      dsimp only
      split <;> rfl
  · rw [if_neg hc, if_neg hc, add_zero]

theorem allocsStep_totalValue (vi : ℕ) (oi : Option ℕ) (a : AllocsAgg) (s : Sample) :
    (allocsStep vi oi a s).totalValue =
      a.totalValue +
        (if s.location ≠ [] ∧ vi < s.value.length then s.value.getD vi 0 else 0) := by
  unfold allocsStep
  by_cases hc : s.location ≠ [] ∧ vi < s.value.length
  · rw [if_pos hc, if_pos hc]
    cases hl : s.location with
    | nil => exact absurd hl hc.1
    | cons loc rest =>
      dsimp only
      split <;> rfl
  · rw [if_neg hc, if_neg hc, add_zero]

/-- Guarded sum over a raw sample list. -/
theorem guardedSum_cons (vi : ℕ) (s : Sample) (l : List Sample) :
    guardedSelectedSum ⟨[], s :: l⟩ vi =
      (if s.location ≠ [] ∧ vi < s.value.length then s.value.getD vi 0 else 0) +
        guardedSelectedSum ⟨[], l⟩ vi := by
  unfold guardedSelectedSum
  simp only [List.filter_cons]
  by_cases hc : s.location ≠ [] ∧ vi < s.value.length
  · rw [if_pos hc]
    have hb : (!s.location.isEmpty && decide (vi < s.value.length)) = true := by
      simp only [Bool.and_eq_true, Bool.not_eq_true', decide_eq_true_eq]
      exact ⟨by simpa [List.isEmpty_iff] using hc.1, hc.2⟩
    rw [hb]
    simp
  · rw [if_neg hc]
    have hb : (!s.location.isEmpty && decide (vi < s.value.length)) = false := by
      rw [not_and_or] at hc
      rcases hc with h | h
      · simp only [ne_eq, not_not] at h
        simp [h]
      · simp [h]
    rw [hb]
    simp

theorem heap_foldl_totalValue (vi : ℕ) (oi : Option ℕ) :
    ∀ (l : List Sample) (a : HeapAgg),
      (l.foldl (heapStep vi oi) a).totalValue =
        a.totalValue + guardedSelectedSum ⟨[], l⟩ vi := by
  intro l
  induction l with
  | nil =>
    intro a
    simp [guardedSelectedSum]
  | cons s l ih =>
    intro a
    rw [List.foldl_cons, ih, heapStep_totalValue, guardedSum_cons]
    ring

theorem allocs_foldl_totalValue (vi : ℕ) (oi : Option ℕ) :
    ∀ (l : List Sample) (a : AllocsAgg),
      (l.foldl (allocsStep vi oi) a).totalValue =
        a.totalValue + guardedSelectedSum ⟨[], l⟩ vi := by
  intro l
  induction l with
  | nil =>
    intro a
    simp [guardedSelectedSum]
  | cons s l ih =>
    intro a
    rw [List.foldl_cons, ih, allocsStep_totalValue, guardedSum_cons]
    ring

/-- C2 counterexample: a heap profile whose only sample has value 7 but no
locations reports grand total 0 — the guard skips the sample entirely, so
the total does NOT include every sample's selected value as claimed. -/
theorem flat_total_skips_locationless_samples :
    (AnalyzeHeapProfile c2NoLocationProfile 5).toOption.map (fun r => r.totalValue) = some 0 ∧
    selectedSum c2NoLocationProfile 0 = 7 := by
  decide

/-- C2 (amended): the flat aggregators' grand total sums the selected values
of exactly the samples passing the
`len(s.Location) > 0 && len(s.Value) > valueIndex` guard.  A guarded sample
whose top frame yields no non-nil function still enters the total (and, in
the heap analysis, the by-type map) but contributes to no by-function or
by-allocation-site key; a sample with no location at all is excluded from
the total as well. -/
theorem flat_total_includes_unattributed_guarded_samples (p : Profile) (topN : Int)
    (vi : ℕ) :
    (resolveHeapValueIndex p.sampleType = some vi →
      ∀ rep, AnalyzeHeapProfile p topN = .ok rep →
        rep.totalValue = guardedSelectedSum p vi) ∧
    (resolveAllocsValueIndex p.sampleType = some vi →
      ∀ rep, AnalyzeAllocsProfile p topN = .ok rep →
        rep.totalValue = guardedSelectedSum p vi) ∧
    (∀ (oi : Option ℕ) (a : HeapAgg) (s : Sample) (loc : GoLocation),
      vi < s.value.length → s.location.head? = some loc → firstFnLine loc = none →
      (heapStep vi oi a s).funcValue = a.funcValue ∧
      (heapStep vi oi a s).allocSiteValue = a.allocSiteValue ∧
      (heapStep vi oi a s).funcObjects = a.funcObjects ∧
      (heapStep vi oi a s).allocSiteObjects = a.allocSiteObjects ∧
      (heapStep vi oi a s).totalValue = a.totalValue + s.value.getD vi 0) ∧
    (∀ (oi : Option ℕ) (a : AllocsAgg) (s : Sample) (loc : GoLocation),
      vi < s.value.length → s.location.head? = some loc → firstFnLine loc = none →
      (allocsStep vi oi a s).funcValue = a.funcValue ∧
      (allocsStep vi oi a s).allocSiteValue = a.allocSiteValue ∧
      (allocsStep vi oi a s).funcObjects = a.funcObjects ∧
      (allocsStep vi oi a s).allocSiteObjects = a.allocSiteObjects ∧
      (allocsStep vi oi a s).totalValue = a.totalValue + s.value.getD vi 0) := by
  have hguard : ∀ (s : Sample) (loc : GoLocation), s.location.head? = some loc →
      vi < s.value.length → (s.location ≠ [] ∧ vi < s.value.length) := by
    intro s loc hh hv
    cases hl : s.location with
    | nil => rw [hl] at hh; simp at hh
    | cons l0 rest => exact ⟨by simp [hl], hv⟩
  refine ⟨?_, ?_, ?_, ?_⟩
  · intro hres rep hrep
    unfold AnalyzeHeapProfile at hrep
    rw [hres] at hrep
    simp only [Except.ok.injEq] at hrep
    subst hrep
    have := heap_foldl_totalValue vi (resolveHeapObjectsIndex p.sampleType) p.sample
      HeapAgg.initial
    simpa [HeapAgg.initial, guardedSelectedSum] using this
  · intro hres rep hrep
    unfold AnalyzeAllocsProfile at hrep
    rw [hres] at hrep
    simp only [Except.ok.injEq] at hrep
    subst hrep
    have := allocs_foldl_totalValue vi (resolveAllocsObjectsIndex p.sampleType) p.sample
      AllocsAgg.initial
    simpa [AllocsAgg.initial, guardedSelectedSum] using this
  · intro oi a s loc hv hh hfn
    have hc := hguard s loc hh hv
    unfold heapStep
    rw [if_pos hc]
    cases hl : s.location with
    | nil => exact absurd hl hc.1
    | cons l0 rest =>
      have hloc : l0 = loc := by rw [hl] at hh; simpa using hh
      subst hloc
      dsimp only
      rw [hfn]
      exact ⟨rfl, rfl, rfl, rfl, rfl⟩
  · intro oi a s loc hv hh hfn
    have hc := hguard s loc hh hv
    unfold allocsStep
    rw [if_pos hc]
    cases hl : s.location with
    | nil => exact absurd hl hc.1
    | cons l0 rest =>
      have hloc : l0 = loc := by rw [hl] at hh; simpa using hh
      subst hloc
      dsimp only
      rw [hfn]
      exact ⟨rfl, rfl, rfl, rfl, rfl⟩

/-- C2 witness: a heap sample with a location but a nil function is counted
in the grand total (9) while attributing to no function/site key. -/
theorem flat_total_includes_unattributed_guarded_samples_witness :
    (AnalyzeHeapProfile nilFnProfile 5).toOption.map (fun r => (r.totalValue, r.funcStats)) =
      some (9, []) ∧
    (∀ rep, AnalyzeHeapProfile nilFnProfile 5 = .ok rep →
      rep.totalValue = guardedSelectedSum nilFnProfile 0) :=
  ⟨by decide,
   (flat_total_includes_unattributed_guarded_samples nilFnProfile 5 0).1 (by decide)⟩

/-! ## C7: top-N truncation of the ranked sections -/

theorem sortStatsDesc_sorted (l : List (String × Int)) :
    (sortStatsDesc l).Sorted (fun a b => b.2 ≤ a.2) := by
  haveI : IsTotal (String × Int) (fun a b => b.2 ≤ a.2) := ⟨fun a b => le_total b.2 a.2⟩
  haveI : IsTrans (String × Int) (fun a b => b.2 ≤ a.2) :=
    ⟨fun _ _ _ h1 h2 => le_trans h2 h1⟩
  exact List.sorted_insertionSort _ l

theorem sortStats3Desc_sorted (l : List (String × Int × Int)) :
    (sortStats3Desc l).Sorted (fun a b => b.2.1 ≤ a.2.1) := by
  haveI : IsTotal (String × Int × Int) (fun a b => b.2.1 ≤ a.2.1) :=
    ⟨fun a b => le_total b.2.1 a.2.1⟩
  haveI : IsTrans (String × Int × Int) (fun a b => b.2.1 ≤ a.2.1) :=
    ⟨fun _ _ _ h1 h2 => le_trans h2 h1⟩
  exact List.sorted_insertionSort _ l

/-- C7 counterexample: a heap profile with one function key but two type
keys, at top-N 2: the by-type section emits only 1 row although
min(2, type-key count) = 2 — the by-type (and by-site) limits are capped by
the by-function limit, so the claim's per-section `min(N, distinct keys)`
bound fails. -/
theorem flat_topn_type_rows_capped_counterexample :
    (AnalyzeHeapProfile c7Profile 2).toOption.map
      (fun r => (r.typeRows.length, r.typeStats.length, r.funcStats.length)) =
      some (1, 2, 1) := by
  decide

/-- C7 (amended): for nonnegative requested top-N, the by-function rows are
exactly the first `min(N, function-key count)` entries of the descending-
sorted function stats; the by-site and by-type rows are prefixes whose
length is additionally capped by the by-function limit
(`min(min(N, #functions), #sites)` resp. `#types`); the by-type section is
emitted only when the top-ranked type is not `"unknown"`.  When N exceeds
the respective key count no error occurs and no padding is added. -/
theorem flat_topn_rows_truncation (p : Profile) (topN : Int) (h : 0 ≤ topN) :
    (∀ rep, AnalyzeHeapProfile p topN = .ok rep →
      rep.funcRows = rep.funcStats.take (min topN.toNat rep.funcStats.length) ∧
      rep.funcRows.length = min topN.toNat rep.funcStats.length ∧
      rep.funcStats.Sorted (fun a b => b.2 ≤ a.2) ∧
      rep.siteRows = rep.siteStats.take
        (min (min topN.toNat rep.funcStats.length) rep.siteStats.length) ∧
      rep.siteStats.Sorted (fun a b => b.2.1 ≤ a.2.1) ∧
      rep.typeStats.Sorted (fun a b => b.2.1 ≤ a.2.1) ∧
      (∀ t0 rest, rep.typeStats = t0 :: rest → t0.1 ≠ "unknown" →
        rep.typeRows = rep.typeStats.take
          (min (min topN.toNat rep.funcStats.length) rep.typeStats.length)) ∧
      (∀ t0 rest, rep.typeStats = t0 :: rest → t0.1 = "unknown" → rep.typeRows = []) ∧
      (rep.typeStats = [] → rep.typeRows = [])) ∧
    (∀ rep, AnalyzeAllocsProfile p topN = .ok rep →
      rep.funcRows = rep.funcStats.take (min topN.toNat rep.funcStats.length) ∧
      rep.funcRows.length = min topN.toNat rep.funcStats.length ∧
      rep.funcStats.Sorted (fun a b => b.2 ≤ a.2) ∧
      rep.siteRows = rep.siteStats.take
        (min (min topN.toNat rep.funcStats.length) rep.siteStats.length) ∧
      rep.siteStats.Sorted (fun a b => b.2.1 ≤ a.2.1)) := by
  constructor
  · intro rep hrep
    unfold AnalyzeHeapProfile at hrep
    cases hres : resolveHeapValueIndex p.sampleType with
    | none => rw [hres] at hrep; simp at hrep
    | some vi =>
      rw [hres] at hrep
      simp only [Except.ok.injEq] at hrep
      subst hrep
      dsimp only
      set fs := sortStatsDesc
        (p.sample.foldl (heapStep vi (resolveHeapObjectsIndex p.sampleType))
          HeapAgg.initial).funcValue with hfs
      set ss := sortStats3Desc
        (((p.sample.foldl (heapStep vi (resolveHeapObjectsIndex p.sampleType))
          HeapAgg.initial).allocSiteValue).map fun q =>
            (q.1, q.2, lookup0 (p.sample.foldl
              (heapStep vi (resolveHeapObjectsIndex p.sampleType))
              HeapAgg.initial).allocSiteObjects q.1)) with hss
      set ts := sortStats3Desc
        (((p.sample.foldl (heapStep vi (resolveHeapObjectsIndex p.sampleType))
          HeapAgg.initial).typeValue).map fun q =>
            (q.1, q.2, lookup0 (p.sample.foldl
              (heapStep vi (resolveHeapObjectsIndex p.sampleType))
              HeapAgg.initial).typeObjects q.1)) with hts
      have hlim : ((if topN > (fs.length : Int) then (fs.length : Int) else topN)).toNat =
          min topN.toNat fs.length := by
        split <;> omega
      have hslim : ((if (if topN > (fs.length : Int) then (fs.length : Int) else topN) >
          (ss.length : Int) then (ss.length : Int)
          else if topN > (fs.length : Int) then (fs.length : Int) else topN)).toNat =
          min (min topN.toNat fs.length) ss.length := by
        split <;> split <;> omega
      have htlim : ((if (if topN > (fs.length : Int) then (fs.length : Int) else topN) >
          (ts.length : Int) then (ts.length : Int)
          else if topN > (fs.length : Int) then (fs.length : Int) else topN)).toNat =
          min (min topN.toNat fs.length) ts.length := by
        split <;> split <;> omega
      refine ⟨by rw [hlim], by rw [hlim]; simp [List.length_take], ?_, ?_, ?_, ?_,
        ?_, ?_, ?_⟩
      · rw [hfs]; exact sortStatsDesc_sorted _
      · rw [hslim]
      · rw [hss]; exact sortStats3Desc_sorted _
      · rw [hts]; exact sortStats3Desc_sorted _
      · intro t0 rest hts0 hne
        rw [hts0]
        dsimp only
        rw [if_pos hne, ← hts0, htlim]
      · intro t0 rest hts0 heq
        rw [hts0]
        dsimp only
        rw [if_neg (by simp [heq])]
      · intro hts0
        rw [hts0]
  · intro rep hrep
    unfold AnalyzeAllocsProfile at hrep
    cases hres : resolveAllocsValueIndex p.sampleType with
    | none => rw [hres] at hrep; simp at hrep
    | some vi =>
      rw [hres] at hrep
      simp only [Except.ok.injEq] at hrep
      subst hrep
      dsimp only
      set fs := sortStatsDesc
        (p.sample.foldl (allocsStep vi (resolveAllocsObjectsIndex p.sampleType))
          AllocsAgg.initial).funcValue with hfs
      set ss := sortStats3Desc
        (((p.sample.foldl (allocsStep vi (resolveAllocsObjectsIndex p.sampleType))
          AllocsAgg.initial).allocSiteValue).map fun q =>
            (q.1, q.2, lookup0 (p.sample.foldl
              (allocsStep vi (resolveAllocsObjectsIndex p.sampleType))
              AllocsAgg.initial).allocSiteObjects q.1)) with hss
      have hlim : ((if topN > (fs.length : Int) then (fs.length : Int) else topN)).toNat =
          min topN.toNat fs.length := by
        split <;> omega
      have hslim : ((if (if topN > (fs.length : Int) then (fs.length : Int) else topN) >
          (ss.length : Int) then (ss.length : Int)
          else if topN > (fs.length : Int) then (fs.length : Int) else topN)).toNat =
          min (min topN.toNat fs.length) ss.length := by
        split <;> split <;> omega
      refine ⟨by rw [hlim], by rw [hlim]; simp [List.length_take], ?_, ?_, ?_⟩
      · rw [hfs]; exact sortStatsDesc_sorted _
      · rw [hslim]
      · rw [hss]; exact sortStats3Desc_sorted _

/-- C7 witness: the amended truncation facts at a concrete heap profile with
1 function key, 1 site key and 2 type keys at top-N 2, together with the
concretely evaluated by-function rows. -/
theorem flat_topn_rows_truncation_witness :
    (AnalyzeHeapProfile c7Profile 2).toOption.map (fun r => r.funcRows) =
      some [("allocF", 8)] ∧
    (∀ rep, AnalyzeHeapProfile c7Profile 2 = .ok rep →
      rep.funcRows = rep.funcStats.take (min (2 : Int).toNat rep.funcStats.length) ∧
      rep.funcRows.length = min (2 : Int).toNat rep.funcStats.length ∧
      rep.funcStats.Sorted (fun a b => b.2 ≤ a.2) ∧
      rep.siteRows = rep.siteStats.take
        (min (min (2 : Int).toNat rep.funcStats.length) rep.siteStats.length) ∧
      rep.siteStats.Sorted (fun a b => b.2.1 ≤ a.2.1) ∧
      rep.typeStats.Sorted (fun a b => b.2.1 ≤ a.2.1) ∧
      (∀ t0 rest, rep.typeStats = t0 :: rest → t0.1 ≠ "unknown" →
        rep.typeRows = rep.typeStats.take
          (min (min (2 : Int).toNat rep.funcStats.length) rep.typeStats.length)) ∧
      (∀ t0 rest, rep.typeStats = t0 :: rest → t0.1 = "unknown" → rep.typeRows = []) ∧
      (rep.typeStats = [] → rep.typeRows = [])) :=
  ⟨by decide, (flat_topn_rows_truncation c7Profile 2 (by decide)).1⟩

/-! ## C6 / C10: flame-graph builder error and panic conditions -/

theorem buildStep_eq_none_iff (vi : ℕ) (isMem : Bool) (oi : Option ℕ)
    (st : BuildState) (s : Sample) :
    buildStep vi isMem oi st s = none ↔ s.value.length ≤ vi := by
  unfold buildStep
  cases hget : s.value.get? vi with
  | none =>
    rw [List.get?_eq_none] at hget
    simp [hget]
  | some v =>
    have hlt : vi < s.value.length := by
      rcases List.get?_eq_some.mp hget with ⟨h, _⟩
      exact h
    dsimp only
    constructor
    · intro hc
      by_cases hv : v = 0
      · rw [if_pos hv] at hc; exact absurd hc (by simp)
      · rw [if_neg hv] at hc; exact absurd hc (by simp)
    · intro hc; omega

theorem buildSamples_eq_none_iff (vi : ℕ) (isMem : Bool) (oi : Option ℕ) :
    ∀ (l : List Sample) (st : BuildState),
      buildSamples vi isMem oi l st = none ↔ ∃ s ∈ l, s.value.length ≤ vi := by
  intro l
  induction l with
  | nil => intro st; simp [buildSamples]
  | cons s l ih =>
    intro st
    unfold buildSamples
    cases hstep : buildStep vi isMem oi st s with
    | none =>
      have hlen := (buildStep_eq_none_iff vi isMem oi st s).mp hstep
      exact iff_of_true rfl ⟨s, by simp, hlen⟩
    | some st' =>
      have hs : ¬s.value.length ≤ vi := fun hc =>
        absurd hstep (by rw [(buildStep_eq_none_iff vi isMem oi st s).mpr hc]; simp)
      rw [show (match some st' with
          | none => none
          | some st' => buildSamples vi isMem oi l st') = buildSamples vi isMem oi l st'
        from rfl]
      rw [ih st']
      constructor
      · intro ⟨s', hs', h'⟩
        exact ⟨s', by simp [hs'], h'⟩
      · rintro ⟨s', hs', h'⟩
        rcases List.mem_cons.mp hs' with rfl | hmem
        · exact absurd h' hs
        · exact ⟨s', hmem, h'⟩

/-- C6 (confirmed): `BuildFlameGraphTree` returns its error exactly when the
requested value index is negative or not below the declared sample-type
count; for every in-range index (on profiles whose samples carry the indexed
value, the pprof well-formedness the builder assumes — see C10) it returns a
tree and never an error. -/
theorem flame_tree_error_iff_index_out_of_range (p : Profile) (i : Int) :
    ((∃ e, BuildFlameGraphTree p i = some (.error e)) ↔
      (i < 0 ∨ (p.sampleType.length : Int) ≤ i)) ∧
    (0 ≤ i → i < (p.sampleType.length : Int) →
      (∀ s ∈ p.sample, i.toNat < s.value.length) →
      ∃ t, BuildFlameGraphTree p i = some (.ok t)) := by
  unfold BuildFlameGraphTree
  by_cases hc : i < 0 ∨ (p.sampleType.length : Int) ≤ i
  · rw [if_pos hc]
    exact ⟨⟨fun _ => hc, fun _ => ⟨_, rfl⟩⟩, fun h1 h2 _ => by omega⟩
  · rw [if_neg hc]
    dsimp only
    have hiff := buildSamples_eq_none_iff i.toNat
      (isMemoryValueType (p.sampleType.getD i.toNat ⟨"", ""⟩))
      (if isMemoryValueType (p.sampleType.getD i.toNat ⟨"", ""⟩) then
        findObjectsIndex p.sampleType else none) p.sample
      ⟨TempNode.mk 0 "root" "" 0 0 0 "" [], 0, 0⟩
    cases hb : buildSamples i.toNat
        (isMemoryValueType (p.sampleType.getD i.toNat ⟨"", ""⟩))
        (if isMemoryValueType (p.sampleType.getD i.toNat ⟨"", ""⟩) then
          findObjectsIndex p.sampleType else none)
        p.sample ⟨TempNode.mk 0 "root" "" 0 0 0 "" [], 0, 0⟩ with
    | none =>
      rw [hb] at hiff
      constructor
      · exact iff_of_false (fun ⟨e, he⟩ => Option.noConfusion he) hc
      · intro _ _ hwf
        exfalso
        obtain ⟨s, hs, hlen⟩ := hiff.mp rfl
        exact absurd hlen (by have := hwf s hs; omega)
    | some st =>
      constructor
      · refine iff_of_false ?_ hc
        rintro ⟨e, he⟩
        exact Except.noConfusion (Option.some.inj he)
      · intro _ _ _
        exact ⟨_, rfl⟩

/-- C6 witness: index 0 is in range for the demo CPU profile and yields a
tree; for index 1 the error condition is characterized by the same theorem. -/
theorem flame_tree_error_iff_index_out_of_range_witness :
    (∃ t, BuildFlameGraphTree demoCpuProfile 0 = some (.ok t)) ∧
    ((∃ e, BuildFlameGraphTree demoCpuProfile 1 = some (.error e)) ↔
      ((1 : Int) < 0 ∨ (demoCpuProfile.sampleType.length : Int) ≤ 1)) :=
  ⟨(flame_tree_error_iff_index_out_of_range demoCpuProfile 0).2
      (by decide) (by decide) (by decide),
   (flame_tree_error_iff_index_out_of_range demoCpuProfile 1).1⟩

/-- C10 (confirmed): for an in-range value index, `BuildFlameGraphTree`
reads `sample.Value[valueIndex]` for every sample without a per-sample
length guard (unlike the flat aggregators, which test
`len(s.Value) > valueIndex`); it panics exactly when some sample's value
vector is too short, and under the precondition that every sample's vector
is longer than the index it is total (every indexing operation is in
bounds). -/
theorem flame_tree_requires_full_value_vectors (p : Profile) (i : Int)
    (h0 : 0 ≤ i) (h1 : i < (p.sampleType.length : Int)) :
    (BuildFlameGraphTree p i = none ↔ ∃ s ∈ p.sample, s.value.length ≤ i.toNat) ∧
    ((∀ s ∈ p.sample, i.toNat < s.value.length) → BuildFlameGraphTree p i ≠ none) := by
  have hc : ¬(i < 0 ∨ (p.sampleType.length : Int) ≤ i) := by omega
  unfold BuildFlameGraphTree
  rw [if_neg hc]
  dsimp only
  have hiff := buildSamples_eq_none_iff i.toNat
    (isMemoryValueType (p.sampleType.getD i.toNat ⟨"", ""⟩))
    (if isMemoryValueType (p.sampleType.getD i.toNat ⟨"", ""⟩) then
      findObjectsIndex p.sampleType else none) p.sample
    ⟨TempNode.mk 0 "root" "" 0 0 0 "" [], 0, 0⟩
  cases hb : buildSamples i.toNat
      (isMemoryValueType (p.sampleType.getD i.toNat ⟨"", ""⟩))
      (if isMemoryValueType (p.sampleType.getD i.toNat ⟨"", ""⟩) then
        findObjectsIndex p.sampleType else none)
      p.sample ⟨TempNode.mk 0 "root" "" 0 0 0 "" [], 0, 0⟩ with
  | none =>
    rw [hb] at hiff
    constructor
    · exact iff_of_true rfl (hiff.mp rfl)
    · intro hwf _
      obtain ⟨s, hs, hlen⟩ := hiff.mp rfl
      exact absurd hlen (by have := hwf s hs; omega)
  | some st =>
    rw [hb] at hiff
    constructor
    · exact iff_of_false (fun hcc => Option.noConfusion hcc)
        (fun hex => Option.noConfusion (hiff.mpr hex))
    · intro _ hcc
      exact Option.noConfusion hcc

/-- C10 witness: two declared sample types but a length-1 value vector —
index 1 is in range yet the builder panics on this profile. -/
theorem flame_tree_requires_full_value_vectors_witness :
    (BuildFlameGraphTree shortValueProfile 1 = none ↔
      ∃ s ∈ shortValueProfile.sample, s.value.length ≤ (1 : Int).toNat) ∧
    ((∀ s ∈ shortValueProfile.sample, (1 : Int).toNat < s.value.length) →
      BuildFlameGraphTree shortValueProfile 1 ≠ none) :=
  flame_tree_requires_full_value_vectors shortValueProfile 1 (by decide) (by decide)

/-! ## C5: zero-valued samples contribute nothing -/

theorem getD_of_get?_eq_some {l : List Int} {n : ℕ} {v : Int}
    (h : l.get? n = some v) : l.getD n 0 = v := by
  rw [List.getD_eq_getElem?_getD, ← List.get?_eq_getElem?, h]
  rfl

theorem buildSamples_filter_zero (vi : ℕ) (isMem : Bool) (oi : Option ℕ) :
    ∀ (l : List Sample) (st : BuildState), (∀ s ∈ l, vi < s.value.length) →
      buildSamples vi isMem oi (l.filter (fun s => !(s.value.getD vi 0 == 0))) st =
        buildSamples vi isMem oi l st := by
  intro l
  induction l with
  | nil => intro st _; rfl
  | cons s l ih =>
    intro st hwf
    have hlt : vi < s.value.length := hwf s (by simp)
    cases hget : s.value.get? vi with
    | none =>
      rw [List.get?_eq_none] at hget
      omega
    | some v =>
      have hgetD : s.value.getD vi 0 = v := getD_of_get?_eq_some hget
      have hge : s.value[vi]? = some v := by
        rw [← List.get?_eq_getElem?]; exact hget
      rw [List.filter_cons]
      by_cases hv : v = 0
      · have hcond : (!(s.value.getD vi 0 == 0)) = false := by
          simp [List.getD_eq_getElem?_getD, hge, hv]
        rw [hcond]
        rw [if_neg Bool.false_ne_true]
        rw [ih st (fun s' hs' => hwf s' (by simp [hs']))]
        conv_rhs => unfold buildSamples
        have hstep : buildStep vi isMem oi st s = some st := by
          unfold buildStep
          rw [hget]
          dsimp only
          rw [if_pos hv]
        rw [hstep]
      · have hcond : (!(s.value.getD vi 0 == 0)) = true := by
          simp [List.getD_eq_getElem?_getD, hge, hv]
        rw [hcond]
        rw [if_pos rfl]
        conv_lhs => unfold buildSamples
        conv_rhs => unfold buildSamples
        cases hstep : buildStep vi isMem oi st s with
        | none => rfl
        | some st' =>
          exact ih st' (fun s' hs' => hwf s' (by simp [hs']))

/-- C5 (confirmed): on a well-formed profile (value vectors covering the
in-range index), the flame tree built from the profile equals the tree built
from the same profile with all samples whose selected value is zero removed:
zero-valued samples contribute nothing to any node, the root included. -/
theorem flame_tree_ignores_zero_samples (p : Profile) (i : Int)
    (h0 : 0 ≤ i) (h1 : i < (p.sampleType.length : Int))
    (hwf : ∀ s ∈ p.sample, i.toNat < s.value.length) :
    BuildFlameGraphTree p i =
      BuildFlameGraphTree
        ⟨p.sampleType, p.sample.filter (fun s => !(s.value.getD i.toNat 0 == 0))⟩ i := by
  have hc : ¬(i < 0 ∨ (p.sampleType.length : Int) ≤ i) := by omega
  unfold BuildFlameGraphTree
  rw [if_neg hc, if_neg hc]
  dsimp only
  rw [buildSamples_filter_zero i.toNat
    (isMemoryValueType (p.sampleType.getD i.toNat ⟨"", ""⟩))
    (if isMemoryValueType (p.sampleType.getD i.toNat ⟨"", ""⟩) then
      findObjectsIndex p.sampleType else none)
    p.sample ⟨TempNode.mk 0 "root" "" 0 0 0 "" [], 0, 0⟩ hwf]

/-- C5 witness: adding a zero-valued sample to the demo CPU profile does not
change the resulting tree (the filtered profile is the original one). -/
theorem flame_tree_ignores_zero_samples_witness :
    BuildFlameGraphTree demoCpuProfileWithZero 0 =
      BuildFlameGraphTree
        ⟨demoCpuProfileWithZero.sampleType,
         demoCpuProfileWithZero.sample.filter
           (fun s => !(s.value.getD (0 : Int).toNat 0 == 0))⟩ 0 :=
  flame_tree_ignores_zero_samples demoCpuProfileWithZero 0
    (by decide) (by decide) (by decide)

/-! ## C1: the value invariant of the flame tree -/

/-- Structural induction over `TempNode` (nested inductive), via sizeOf. -/
theorem tempNode_ind (P : TempNode → Prop)
    (h : ∀ k n fp ln sv oc ot cs, (∀ c ∈ cs, P c) → P (.mk k n fp ln sv oc ot cs)) :
    ∀ t, P t := by
  have key : ∀ (m : ℕ) (t : TempNode), sizeOf t ≤ m → P t := by
    intro m
    induction m with
    | zero =>
      intro t ht
      cases t with
      | mk k n fp ln sv oc ot cs => simp at ht
    | succ m ih =>
      intro t ht
      cases t with
      | mk k n fp ln sv oc ot cs =>
        apply h
        intro c hc
        apply ih
        have h1 := List.sizeOf_lt_of_mem hc
        have h2 : sizeOf (TempNode.mk k n fp ln sv oc ot cs) =
            1 + sizeOf k + sizeOf n + sizeOf fp + sizeOf ln + sizeOf sv + sizeOf oc +
              sizeOf ot + sizeOf cs := by
          simp
        omega
  intro t
  exact key (sizeOf t) t le_rfl

/-- Structural induction over `FlameGraphNode`. -/
theorem flameNode_ind (P : FlameGraphNode → Prop)
    (h : ∀ n v vf sv oc avs avsf ty fp ln cs, (∀ c ∈ cs, P c) →
      P (.mk n v vf sv oc avs avsf ty fp ln cs)) :
    ∀ t, P t := by
  have key : ∀ (m : ℕ) (t : FlameGraphNode), sizeOf t ≤ m → P t := by
    intro m
    induction m with
    | zero =>
      intro t ht
      cases t with
      | mk n v vf sv oc avs avsf ty fp ln cs => simp at ht
    | succ m ih =>
      intro t ht
      cases t with
      | mk n v vf sv oc avs avsf ty fp ln cs =>
        apply h
        intro c hc
        apply ih
        have h1 := List.sizeOf_lt_of_mem hc
        have h2 : sizeOf (FlameGraphNode.mk n v vf sv oc avs avsf ty fp ln cs) =
            1 + sizeOf n + sizeOf v + sizeOf vf + sizeOf sv + sizeOf oc + sizeOf avs +
              sizeOf avsf + sizeOf ty + sizeOf fp + sizeOf ln + sizeOf cs := by
          simp
        omega
  intro t
  exact key (sizeOf t) t le_rfl

theorem calcTotalList_append (cs ds : List TempNode) :
    calcTotalList (cs ++ ds) = calcTotalList cs + calcTotalList ds := by
  induction cs with
  | nil => simp [calcTotalList]
  | cons c cs ih =>
    show calcTotal c + calcTotalList (cs ++ ds) = calcTotal c + calcTotalList cs + calcTotalList ds
    rw [ih]; ring

theorem allSelfNonnegList_iff (cs : List TempNode) :
    allSelfNonnegList cs = true ↔ ∀ c ∈ cs, allSelfNonneg c = true := by
  induction cs with
  | nil => simp [allSelfNonnegList]
  | cons c cs ih =>
    show (allSelfNonneg c && allSelfNonnegList cs) = true ↔ _
    rw [Bool.and_eq_true, ih]
    constructor
    · rintro ⟨h1, h2⟩ c' hc'
      rcases List.mem_cons.mp hc' with rfl | hm
      · exact h1
      · exact h2 c' hm
    · intro hall
      exact ⟨hall c (by simp), fun c' hm => hall c' (by simp [hm])⟩

theorem flameInvListB_iff (l : List FlameGraphNode) :
    flameInvListB l = true ↔ ∀ c ∈ l, flameInvB c = true := by
  induction l with
  | nil => simp [flameInvListB]
  | cons c l ih =>
    show (flameInvB c && flameInvListB l) = true ↔ _
    rw [Bool.and_eq_true, ih]
    constructor
    · rintro ⟨h1, h2⟩ c' hc'
      rcases List.mem_cons.mp hc' with rfl | hm
      · exact h1
      · exact h2 c' hm
    · intro hall
      exact ⟨hall c (by simp), fun c' hm => hall c' (by simp [hm])⟩

theorem sumValues_eq (l : List FlameGraphNode) :
    sumValues l = (l.map FlameGraphNode.value).sum := by
  induction l with
  | nil => rfl
  | cons c l ih =>
    show c.value + sumValues l = _
    simp [ih]

theorem sortTree_value (n : FlameGraphNode) : (sortTree n).value = n.value := by
  cases n; rfl

theorem sortTreeList_eq (l : List FlameGraphNode) : sortTreeList l = l.map sortTree := by
  induction l with
  | nil => rfl
  | cons c l ih =>
    show sortTree c :: sortTreeList l = _
    simp [ih]

theorem keptChildren_eq (isMem : Bool) (u : String) (cs : List TempNode) :
    keptChildren isMem u cs =
      (cs.filter (fun c => decide (0 < calcTotal c))).map (buildChildNode isMem u) := by
  induction cs with
  | nil => rfl
  | cons c cs ih =>
    show (if 0 < calcTotal c then buildChildNode isMem u c :: keptChildren isMem u cs
        else keptChildren isMem u cs) = _
    rw [List.filter_cons]
    by_cases hp : 0 < calcTotal c
    · rw [if_pos hp, if_pos (by simpa using hp), List.map_cons, ih]
    · rw [if_neg hp, if_neg (by simpa using hp), ih]

theorem buildChildNode_value (isMem : Bool) (u : String) (t : TempNode) :
    (buildChildNode isMem u t).value = calcTotal t := by
  cases t; rfl

/-- L1: nonnegative self values give a nonnegative cumulative total. -/
theorem calcTotal_nonneg : ∀ t : TempNode, allSelfNonneg t = true → 0 ≤ calcTotal t := by
  apply tempNode_ind
  intro k n fp ln sv oc ot cs ih hnn
  have hnn' : (decide (0 ≤ sv) && allSelfNonnegList cs) = true := hnn
  rw [Bool.and_eq_true, decide_eq_true_eq] at hnn'
  obtain ⟨hsv, hlist⟩ := hnn'
  have hcs : ∀ c ∈ cs, 0 ≤ calcTotal c := by
    intro c hc
    exact ih c hc ((allSelfNonnegList_iff cs).mp hlist c hc)
  show 0 ≤ sv + calcTotalList cs
  have : 0 ≤ calcTotalList cs := by
    clear ih hlist hnn
    induction cs with
    | nil => simp [calcTotalList]
    | cons c cs ih2 =>
      show 0 ≤ calcTotal c + calcTotalList cs
      have h1 := hcs c (by simp)
      have h2 := ih2 (fun c' hc' => hcs c' (by simp [hc']))
      omega
  omega

/-- L2b: with nonnegative self values, dropped children have total 0, so the
surviving children's values still sum to the full children total. -/
theorem sumValues_keptChildren (isMem : Bool) (u : String) (cs : List TempNode)
    (h : allSelfNonnegList cs = true) :
    sumValues (keptChildren isMem u cs) = calcTotalList cs := by
  induction cs with
  | nil => rfl
  | cons c cs ih =>
    have h' := (allSelfNonnegList_iff (c :: cs)).mp h
    have hc : allSelfNonneg c = true := h' c (by simp)
    have hcs : allSelfNonnegList cs = true :=
      (allSelfNonnegList_iff cs).mpr (fun c' hc' => h' c' (by simp [hc']))
    show sumValues (if 0 < calcTotal c then buildChildNode isMem u c :: keptChildren isMem u cs
        else keptChildren isMem u cs) = calcTotal c + calcTotalList cs
    by_cases hp : 0 < calcTotal c
    · rw [if_pos hp]
      show (buildChildNode isMem u c).value + sumValues (keptChildren isMem u cs) = _
      rw [buildChildNode_value, ih hcs]
    · rw [if_neg hp]
      have h0 : calcTotal c = 0 := le_antisymm (by omega) (calcTotal_nonneg c hc)
      rw [ih hcs, h0, zero_add]

/-- L2a: with nonnegative self values, every built (non-root) node satisfies
the value invariant. -/
theorem flameInvB_buildChildNode (isMem : Bool) (u : String) :
    ∀ t : TempNode, allSelfNonneg t = true →
      flameInvB (buildChildNode isMem u t) = true := by
  apply tempNode_ind
  intro k n fp ln sv oc ot cs ih hnn
  have hnn' : (decide (0 ≤ sv) && allSelfNonnegList cs) = true := hnn
  rw [Bool.and_eq_true, decide_eq_true_eq] at hnn'
  obtain ⟨hsv, hlist⟩ := hnn'
  show ((sv + calcTotalList cs == sv + sumValues (keptChildren isMem u cs)) &&
    flameInvListB (keptChildren isMem u cs)) = true
  rw [Bool.and_eq_true]
  constructor
  · rw [sumValues_keptChildren isMem u cs hlist]
    simp
  · rw [flameInvListB_iff]
    intro c' hc'
    rw [keptChildren_eq] at hc'
    obtain ⟨c, hc, rfl⟩ := List.mem_map.mp hc'
    have hcm := List.mem_of_mem_filter hc
    exact ih c hcm ((allSelfNonnegList_iff cs).mp hlist c hcm)

/-- L3: sorting children (recursively) preserves the value invariant. -/
theorem flameInvB_sortTree :
    ∀ t : FlameGraphNode, flameInvB t = true → flameInvB (sortTree t) = true := by
  apply flameNode_ind
  intro n v vf sv oc avs avsf ty fp ln cs ih hinv
  have hinv' : ((v == sv + sumValues cs) && flameInvListB cs) = true := hinv
  rw [Bool.and_eq_true] at hinv'
  obtain ⟨hval, hlist⟩ := hinv'
  show ((v == sv + sumValues (List.insertionSort _ (sortTreeList cs))) &&
    flameInvListB (List.insertionSort _ (sortTreeList cs))) = true
  rw [Bool.and_eq_true]
  have hperm : (List.insertionSort (fun a b => b.value ≤ a.value) (sortTreeList cs)).Perm
      (sortTreeList cs) := List.perm_insertionSort _ _
  constructor
  · have hsum : sumValues (List.insertionSort (fun a b => b.value ≤ a.value)
        (sortTreeList cs)) = sumValues cs := by
      rw [sumValues_eq, sumValues_eq]
      have h1 : ((List.insertionSort (fun a b => b.value ≤ a.value)
          (sortTreeList cs)).map FlameGraphNode.value).Perm
          ((sortTreeList cs).map FlameGraphNode.value) := hperm.map _
      rw [h1.sum_eq, sortTreeList_eq, List.map_map]
      congr 1
      apply List.map_congr_left
      intro c _
      exact sortTree_value c
    rw [hsum]
    exact hval
  · rw [flameInvListB_iff]
    intro c' hc'
    have hc'' : c' ∈ sortTreeList cs := hperm.mem_iff.mp hc'
    rw [sortTreeList_eq] at hc''
    obtain ⟨c, hc, rfl⟩ := List.mem_map.mp hc''
    exact ih c hc ((flameInvListB_iff cs).mp hlist c hc)

theorem innerUpdate_calcTotal (isMem : Bool) (v oc : Int) (ty : String) (f : Frame)
    (c : TempNode) :
    calcTotal (innerUpdate isMem v oc ty f c) =
      calcTotal c + (if f.isInner then v else 0) := by
  cases c with
  | mk k n fp ln sv occ ot cs =>
    unfold innerUpdate
    dsimp only
    by_cases hf : f.isInner
    · rw [if_pos hf, if_pos hf]
      by_cases hm : isMem = true ∧ 0 < oc
      · rw [if_pos hm]
        show sv + v + calcTotalList cs = sv + calcTotalList cs + v
        ring
      · rw [if_neg hm]
        show sv + v + calcTotalList cs = sv + calcTotalList cs + v
        ring
    · rw [if_neg hf, if_neg hf, add_zero]

theorem calcTotalList_updateFirst (key : Nat) (g : TempNode → TempNode) (d : Int)
    (hg : ∀ c, calcTotal (g c) = calcTotal c + d) :
    ∀ cs : List TempNode, cs.any (fun c => c.key == key) = true →
      calcTotalList (updateFirst key g cs) = calcTotalList cs + d := by
  intro cs
  induction cs with
  | nil => intro h; simp at h
  | cons c cs ih =>
    intro hany
    unfold updateFirst
    by_cases hk : (c.key == key) = true
    · rw [if_pos hk]
      show calcTotal (g c) + calcTotalList cs = calcTotal c + calcTotalList cs + d
      rw [hg c]; ring
    · rw [if_neg hk]
      have hany' : cs.any (fun c => c.key == key) = true := by
        rcases List.any_eq_true.mp hany with ⟨c', hc', hck⟩
        rcases List.mem_cons.mp hc' with rfl | hm
        · exact absurd hck hk
        · exact List.any_eq_true.mpr ⟨c', hm, hck⟩
      show calcTotal c + calcTotalList (updateFirst key g cs) =
        calcTotal c + calcTotalList cs + d
      rw [ih hany']; ring

/-- L4: inserting one sample's frame path adds the sample's value to the
tree's cumulative total once per inner frame (zero or one times: only the
innermost location's frame carries the flag). -/
theorem insertFrames_calcTotal (isMem : Bool) (v oc : Int) (ty : String) :
    ∀ (fs : List Frame) (t : TempNode),
      calcTotal (insertFrames isMem v oc ty fs t) =
        calcTotal t + v * ((fs.countP (fun f => f.isInner) : ℕ) : ℤ) := by
  intro fs
  induction fs with
  | nil => intro t; simp [insertFrames]
  | cons f rest ih =>
    intro t
    cases t with
    | mk k n fp ln sv occ ot cs =>
      unfold insertFrames
      dsimp only
      have hg : ∀ c, calcTotal (insertFrames isMem v oc ty rest
          (innerUpdate isMem v oc ty f c)) =
          calcTotal c + ((if f.isInner then v else 0) +
            v * ((rest.countP (fun fr => fr.isInner) : ℕ) : ℤ)) := by
        intro c
        rw [ih, innerUpdate_calcTotal]
        ring
      have hcount : v * (((f :: rest).countP (fun fr => fr.isInner) : ℕ) : ℤ) =
          (if f.isInner then v else 0) +
            v * ((rest.countP (fun fr => fr.isInner) : ℕ) : ℤ) := by
        rw [List.countP_cons]
        by_cases hf : f.isInner
        · rw [if_pos hf]
          simp only [hf, if_pos]
          push_cast
          ring
        · rw [if_neg hf]
          have : (f.isInner = true) = False := by simp [hf]
          simp only [hf]
          push_cast
          ring
      by_cases hany : cs.any (fun c => c.key == f.funcID) = true
      · rw [if_pos hany]
        show sv + calcTotalList (updateFirst f.funcID _ cs) = sv + calcTotalList cs + _
        rw [calcTotalList_updateFirst f.funcID _ _ hg cs hany, hcount]
        ring
      · rw [if_neg hany]
        show sv + calcTotalList (cs ++ [insertFrames isMem v oc ty rest
            (innerUpdate isMem v oc ty f (freshChild ty f))]) = sv + calcTotalList cs + _
        rw [calcTotalList_append]
        have hsing : calcTotalList [insertFrames isMem v oc ty rest
            (innerUpdate isMem v oc ty f (freshChild ty f))] =
            calcTotal (freshChild ty f) +
              ((if f.isInner then v else 0) +
                v * ((rest.countP (fun fr => fr.isInner) : ℕ) : ℤ)) := by
          show calcTotal _ + 0 = _
          rw [hg]; ring
        rw [hsing]
        have hfresh : calcTotal (freshChild ty f) = 0 := rfl
        rw [hfresh, hcount]
        ring

theorem innerUpdate_nonneg (isMem : Bool) (v oc : Int) (ty : String) (f : Frame)
    (c : TempNode) (hv : 0 ≤ v) (h : allSelfNonneg c = true) :
    allSelfNonneg (innerUpdate isMem v oc ty f c) = true := by
  cases c with
  | mk k n fp ln sv occ ot cs =>
    have h' : (decide (0 ≤ sv) && allSelfNonnegList cs) = true := h
    rw [Bool.and_eq_true, decide_eq_true_eq] at h'
    obtain ⟨hsv, hlist⟩ := h'
    unfold innerUpdate
    dsimp only
    by_cases hf : f.isInner
    · rw [if_pos hf]
      by_cases hm : isMem = true ∧ 0 < oc
      · rw [if_pos hm]
        show (decide (0 ≤ sv + v) && allSelfNonnegList cs) = true
        rw [Bool.and_eq_true, decide_eq_true_eq]
        exact ⟨by omega, hlist⟩
      · rw [if_neg hm]
        show (decide (0 ≤ sv + v) && allSelfNonnegList cs) = true
        rw [Bool.and_eq_true, decide_eq_true_eq]
        exact ⟨by omega, hlist⟩
    · rw [if_neg hf]
      exact h

theorem allSelfNonnegList_updateFirst (key : Nat) (g : TempNode → TempNode)
    (hg : ∀ c, allSelfNonneg c = true → allSelfNonneg (g c) = true) :
    ∀ cs : List TempNode, allSelfNonnegList cs = true →
      allSelfNonnegList (updateFirst key g cs) = true := by
  intro cs
  induction cs with
  | nil => intro h; exact h
  | cons c cs ih =>
    intro h
    have h' := (allSelfNonnegList_iff (c :: cs)).mp h
    have hc : allSelfNonneg c = true := h' c (by simp)
    have hcs : allSelfNonnegList cs = true :=
      (allSelfNonnegList_iff cs).mpr (fun c' hm => h' c' (by simp [hm]))
    unfold updateFirst
    by_cases hk : (c.key == key) = true
    · rw [if_pos hk]
      show (allSelfNonneg (g c) && allSelfNonnegList cs) = true
      rw [Bool.and_eq_true]
      exact ⟨hg c hc, hcs⟩
    · rw [if_neg hk]
      show (allSelfNonneg c && allSelfNonnegList (updateFirst key g cs)) = true
      rw [Bool.and_eq_true]
      exact ⟨hc, ih hcs⟩

/-- L5: insertion with a nonnegative value keeps every self value
nonnegative. -/
theorem insertFrames_nonneg (isMem : Bool) (v oc : Int) (ty : String) (hv : 0 ≤ v) :
    ∀ (fs : List Frame) (t : TempNode), allSelfNonneg t = true →
      allSelfNonneg (insertFrames isMem v oc ty fs t) = true := by
  intro fs
  induction fs with
  | nil => intro t h; exact h
  | cons f rest ih =>
    intro t h
    cases t with
    | mk k n fp ln sv occ ot cs =>
      have h' : (decide (0 ≤ sv) && allSelfNonnegList cs) = true := h
      rw [Bool.and_eq_true, decide_eq_true_eq] at h'
      obtain ⟨hsv, hlist⟩ := h'
      have hg : ∀ c, allSelfNonneg c = true →
          allSelfNonneg (insertFrames isMem v oc ty rest
            (innerUpdate isMem v oc ty f c)) = true := by
        intro c hc
        exact ih _ (innerUpdate_nonneg isMem v oc ty f c hv hc)
      unfold insertFrames
      dsimp only
      by_cases hany : cs.any (fun c => c.key == f.funcID) = true
      · rw [if_pos hany]
        show (decide (0 ≤ sv) && allSelfNonnegList (updateFirst f.funcID _ cs)) = true
        rw [Bool.and_eq_true, decide_eq_true_eq]
        exact ⟨hsv, allSelfNonnegList_updateFirst f.funcID _ hg cs hlist⟩
      · rw [if_neg hany]
        show (decide (0 ≤ sv) && allSelfNonnegList (cs ++ [insertFrames isMem v oc ty rest
          (innerUpdate isMem v oc ty f (freshChild ty f))])) = true
        rw [Bool.and_eq_true, decide_eq_true_eq]
        refine ⟨hsv, ?_⟩
        rw [allSelfNonnegList_iff]
        intro c' hc'
        rcases List.mem_append.mp hc' with hm | hm
        · exact (allSelfNonnegList_iff cs).mp hlist c' hm
        · simp only [List.mem_singleton] at hm
          subst hm
          exact hg (freshChild ty f) rfl

theorem frameOfLoc_isInner (loc : GoLocation) (b : Bool) (fr : Frame)
    (h : frameOfLoc loc b = some fr) : fr.isInner = b := by
  unfold frameOfLoc at h
  cases hl : loc.line with
  | nil => rw [hl] at h; simp at h
  | cons l0 rest =>
    rw [hl] at h
    dsimp only at h
    rw [Option.some.injEq] at h
    rw [← h]

theorem framesOfStack_countP (locs : List GoLocation) :
    (framesOfStack locs).countP (fun f => f.isInner) =
      (match locs with
       | [] => 0
       | loc0 :: _ => if loc0.line.isEmpty then 0 else 1) := by
  cases locs with
  | nil => rfl
  | cons loc0 rest =>
    unfold framesOfStack
    rw [List.countP_append]
    have h2 : (rest.filterMap (fun l => frameOfLoc l false)).countP
        (fun f => f.isInner) = 0 := by
      rw [List.countP_eq_zero]
      intro fr hfr
      obtain ⟨loc, _, hsome⟩ := List.mem_filterMap.mp hfr
      rw [frameOfLoc_isInner loc false fr hsome]
      simp
    rw [h2, Nat.add_zero]
    cases hl : loc0.line with
    | nil =>
      have hnone : frameOfLoc loc0 true = none := by
        unfold frameOfLoc; rw [hl]
      rw [hnone]
      simp [hl]
    | cons l0 ls =>
      have hex : ∃ fr, frameOfLoc loc0 true = some fr := by
        unfold frameOfLoc
        rw [hl]
        exact ⟨_, rfl⟩
      obtain ⟨fr, hfr⟩ := hex
      rw [hfr]
      have hinner : fr.isInner = true := frameOfLoc_isInner loc0 true fr hfr
      show List.countP (fun f => f.isInner) [fr] = _
      rw [List.countP_cons]
      simp [hinner, hl]

theorem countP_framesOfStack_of_resolvable (s : Sample)
    (h : innerFrameResolvable s = true) :
    (framesOfStack s.location).countP (fun f => f.isInner) = 1 := by
  unfold innerFrameResolvable at h
  rw [framesOfStack_countP]
  cases hl : s.location with
  | nil => rw [hl] at h; simp at h
  | cons loc0 rest =>
    rw [hl] at h
    dsimp only at h
    rw [Bool.not_eq_true'] at h
    dsimp only
    rw [if_neg (by simp [h])]

/-- L6: accounting across the sample loop — with nonnegative selected values
and resolvable innermost frames for non-zero samples, self values stay
nonnegative, and both the running `totalSampleValue` and the construction
tree's cumulative total grow by exactly the sum of the non-zero selected
values. -/
theorem buildSamples_accounting (vi : ℕ) (isMem : Bool) (oi : Option ℕ) :
    ∀ (l : List Sample) (st st' : BuildState),
      (∀ s ∈ l, 0 ≤ s.value.getD vi 0) →
      (∀ s ∈ l, s.value.getD vi 0 ≠ 0 → innerFrameResolvable s = true) →
      buildSamples vi isMem oi l st = some st' →
      (allSelfNonneg st.root = true → allSelfNonneg st'.root = true) ∧
      st'.totalSampleValue = st.totalSampleValue + nonzeroSelectedSum ⟨[], l⟩ vi ∧
      calcTotal st'.root = calcTotal st.root + nonzeroSelectedSum ⟨[], l⟩ vi := by
  intro l
  induction l with
  | nil =>
    intro st st' _ _ hb
    have hst : st' = st := by
      unfold buildSamples at hb
      exact (Option.some.inj hb).symm
    subst hst
    exact ⟨id, by simp [nonzeroSelectedSum], by simp [nonzeroSelectedSum]⟩
  | cons s l ih =>
    intro st st' hnn hleaf hb
    unfold buildSamples at hb
    cases hstep : buildStep vi isMem oi st s with
    | none => rw [hstep] at hb; simp at hb
    | some st1 =>
      rw [hstep] at hb
      replace hb : buildSamples vi isMem oi l st1 = some st' := hb
      unfold buildStep at hstep
      cases hget : s.value.get? vi with
      | none => rw [hget] at hstep; simp at hstep
      | some v =>
        rw [hget] at hstep
        dsimp only at hstep
        have hgetD : s.value.getD vi 0 = v := getD_of_get?_eq_some hget
        have hge : s.value[vi]? = some v := by
          rw [← List.get?_eq_getElem?]; exact hget
        have hcons_sum : nonzeroSelectedSum ⟨[], s :: l⟩ vi =
            (if v = 0 then 0 else v) + nonzeroSelectedSum ⟨[], l⟩ vi := by
          unfold nonzeroSelectedSum
          dsimp only
          rw [List.filter_cons]
          by_cases hv : v = 0
          · rw [if_pos hv]
            have hcond : (!(s.value.getD vi 0 == 0)) = false := by
              simp [List.getD_eq_getElem?_getD, hge, hv]
            rw [hcond, if_neg Bool.false_ne_true, zero_add]
          · rw [if_neg hv]
            have hcond : (!(s.value.getD vi 0 == 0)) = true := by
              simp [List.getD_eq_getElem?_getD, hge, hv]
            rw [hcond, if_pos rfl, List.map_cons, List.sum_cons, hgetD]
        obtain ⟨iha, ihb, ihc⟩ := ih st1 st'
          (fun s' h => hnn s' (List.mem_cons_of_mem s h))
          (fun s' h => hleaf s' (List.mem_cons_of_mem s h)) hb
        by_cases hv : v = 0
        · rw [if_pos hv] at hstep
          have hst1 : st1 = st := (Option.some.inj hstep).symm
          subst hst1
          rw [hcons_sum, if_pos hv]
          exact ⟨iha, by omega, by omega⟩
        · rw [if_neg hv] at hstep
          have hst1 := Option.some.inj hstep
          subst hst1
          have hv' : 0 ≤ v := by
            have := hnn s (by simp)
            omega
          have hres : innerFrameResolvable s = true := by
            apply hleaf s (by simp)
            omega
          have hcnt : ((framesOfStack s.location).reverse.countP
              (fun f => f.isInner) : ℕ) = 1 := by
            rw [List.countP_reverse]
            exact countP_framesOfStack_of_resolvable s hres
          refine ⟨?_, ?_, ?_⟩
          · intro hns
            apply iha
            dsimp only
            exact insertFrames_nonneg isMem v _ _ hv' _ st.root hns
          · rw [ihb, hcons_sum, if_neg hv]
            dsimp only
            omega
          · rw [ihc, hcons_sum, if_neg hv]
            dsimp only
            rw [insertFrames_calcTotal, hcnt]
            push_cast
            ring

/-- The root node assembled by `finishRoot` satisfies the invariant whenever
self values are nonnegative and the assigned total equals the construction
tree's cumulative total. -/
theorem flameInvB_finishRoot (isMem : Bool) (u : String) (st : BuildState)
    (hns : allSelfNonneg st.root = true)
    (htv : st.totalSampleValue = calcTotal st.root) :
    flameInvB (finishRoot isMem u st) = true := by
  cases hroot : st.root with
  | mk k n fp ln sv oc ot cs =>
    rw [hroot] at hns htv
    have hns' : (decide (0 ≤ sv) && allSelfNonnegList cs) = true := hns
    rw [Bool.and_eq_true, decide_eq_true_eq] at hns'
    obtain ⟨hsv, hlist⟩ := hns'
    unfold finishRoot
    rw [hroot]
    show ((st.totalSampleValue == TempNode.selfValue (.mk k n fp ln sv oc ot cs) +
        sumValues (keptChildren isMem u (TempNode.children (.mk k n fp ln sv oc ot cs)))) &&
      flameInvListB (keptChildren isMem u
        (TempNode.children (.mk k n fp ln sv oc ot cs)))) = true
    rw [Bool.and_eq_true]
    constructor
    · show (st.totalSampleValue == sv + sumValues (keptChildren isMem u cs)) = true
      rw [sumValues_keptChildren isMem u cs hlist, htv]
      show ((sv + calcTotalList cs : Int) == sv + calcTotalList cs) = true
      simp
    · show flameInvListB (keptChildren isMem u cs) = true
      rw [flameInvListB_iff]
      intro c' hc'
      rw [keptChildren_eq] at hc'
      obtain ⟨c, hc, rfl⟩ := List.mem_map.mp hc'
      have hcm := List.mem_of_mem_filter hc
      exact flameInvB_buildChildNode isMem u c
        ((allSelfNonnegList_iff cs).mp hlist c hcm)

/-- C1 counterexample: a profile whose only sample has value 5 and NO
locations.  The builder still counts the 5 in the root's value
(`totalSampleValue` is assigned to the root directly), but no node receives
any self value, so `root.value = 5 ≠ 0 = selfValue + Σ children.value`: the
claimed invariant fails at the root. -/
theorem flame_tree_invariant_fails_without_line_info :
    (BuildFlameGraphTree c1NoStackProfile 0).map
      (fun r => r.toOption.map (fun t => (flameInvB t, t.value))) =
      some (some (false, 5)) := by
  decide

/-- C1 (amended): provided every sample's selected value is nonnegative and
every sample with a non-zero selected value has an innermost location with
line info (so its value is attributed to some node's self value), the tree
returned by `BuildFlameGraphTree` satisfies
`value = selfValue + Σ children.value` at every node, and the root's value
equals the sum of the selected values over the non-zero samples (the root
equation holds unconditionally, being assigned `totalSampleValue`
directly). -/
theorem flame_tree_value_invariant (p : Profile) (i : Int)
    (hnn : ∀ s ∈ p.sample, 0 ≤ s.value.getD i.toNat 0)
    (hleaf : ∀ s ∈ p.sample, s.value.getD i.toNat 0 ≠ 0 → innerFrameResolvable s = true) :
    ∀ t, BuildFlameGraphTree p i = some (.ok t) →
      flameInvB t = true ∧ t.value = nonzeroSelectedSum p i.toNat := by
  intro t ht
  unfold BuildFlameGraphTree at ht
  by_cases hc : i < 0 ∨ (p.sampleType.length : Int) ≤ i
  · rw [if_pos hc] at ht
    simp at ht
  · rw [if_neg hc] at ht
    dsimp only at ht
    cases hb : buildSamples i.toNat
        (isMemoryValueType (p.sampleType.getD i.toNat ⟨"", ""⟩))
        (if isMemoryValueType (p.sampleType.getD i.toNat ⟨"", ""⟩) then
          findObjectsIndex p.sampleType else none)
        p.sample ⟨TempNode.mk 0 "root" "" 0 0 0 "" [], 0, 0⟩ with
    | none => rw [hb] at ht; simp at ht
    | some st =>
      rw [hb] at ht
      rw [Option.some.injEq, Except.ok.injEq] at ht
      subst ht
      obtain ⟨hns, htv, hct⟩ := buildSamples_accounting _ _ _ p.sample _ st hnn hleaf hb
      dsimp only at htv hct
      have hns' : allSelfNonneg st.root = true := hns rfl
      have htv' : st.totalSampleValue = calcTotal st.root := by
        have h0 : calcTotal (TempNode.mk 0 "root" "" 0 0 0 "" []) = 0 := rfl
        have hsum : nonzeroSelectedSum ⟨[], p.sample⟩ i.toNat =
            nonzeroSelectedSum p i.toNat := rfl
        omega
      constructor
      · apply flameInvB_sortTree
        exact flameInvB_finishRoot _ _ st hns' htv'
      · rw [sortTree_value]
        show st.totalSampleValue = _
        have hsum : nonzeroSelectedSum ⟨[], p.sample⟩ i.toNat =
            nonzeroSelectedSum p i.toNat := rfl
        omega

/-- C1 witness: the demo CPU profile (one 1000ns two-frame sample) satisfies
both hypotheses; its tree satisfies the invariant and has root value 1000. -/
theorem flame_tree_value_invariant_witness :
    (BuildFlameGraphTree demoCpuProfile 0).map
      (fun r => r.toOption.map (fun t => (flameInvB t, t.value))) =
      some (some (true, 1000)) ∧
    (∀ t, BuildFlameGraphTree demoCpuProfile 0 = some (.ok t) →
      flameInvB t = true ∧ t.value = nonzeroSelectedSum demoCpuProfile (0 : Int).toNat) :=
  ⟨by decide, flame_tree_value_invariant demoCpuProfile 0 (by decide) (by decide)⟩

/-! ## C9: `FormatBytes` rendering -/

/-- The `div`/`exp` loop lands on the largest power of 1024 not exceeding
the input (`Nat.log`-characterization of `fbLoop`). -/
theorem fbLoop_eq : ∀ (m : ℕ) (n div : ℤ) (exp : ℕ), 0 ≤ n → n.toNat ≤ m →
    fbLoop n div exp =
      (div * 1024 ^ Nat.log 1024 n.toNat, exp + Nat.log 1024 n.toNat) := by
  intro m
  induction m with
  | zero =>
    intro n div exp hn hm
    have h0 : n = 0 := by omega
    subst h0
    unfold fbLoop
    rw [if_neg (by norm_num)]
    simp
  | succ m ih =>
    intro n div exp hn hm
    obtain ⟨a, rfl⟩ : ∃ a : ℕ, n = (a : ℤ) := ⟨n.toNat, by omega⟩
    unfold fbLoop
    by_cases hge : (1024 : ℤ) ≤ (a : ℤ)
    · rw [if_pos hge]
      have ha : 1024 ≤ a := by exact_mod_cast hge
      have htdiv : (a : ℤ).tdiv 1024 = ((a / 1024 : ℕ) : ℤ) := rfl
      rw [htdiv]
      have hlt : a / 1024 < a := Nat.div_lt_self (by omega) (by omega)
      have hr := ih ((a / 1024 : ℕ) : ℤ) (div * 1024) (exp + 1) (by positivity)
        (by simp only [Int.toNat_natCast]; omega)
      rw [hr]
      have hlog : Nat.log 1024 (((a / 1024 : ℕ) : ℤ)).toNat = Nat.log 1024 a - 1 := by
        rw [Int.toNat_natCast]
        exact Nat.log_div_base 1024 a
      have hpos : 0 < Nat.log 1024 a :=
        Nat.log_pos (by norm_num) (by simpa using ha)
      rw [hlog]
      have htn : ((a : ℤ)).toNat = a := Int.toNat_natCast a
      rw [htn]
      rw [Prod.mk.injEq]
      constructor
      · have hpow : (1024 : ℤ) ^ Nat.log 1024 a =
            1024 * 1024 ^ (Nat.log 1024 a - 1) := by
          rw [← pow_succ']
          congr 1
          omega
        rw [hpow]
        ring
      · omega
    · rw [if_neg hge]
      have ha : a < 1024 := by exact_mod_cast not_le.mp hge
      have hlog : Nat.log 1024 (((a : ℤ)).toNat) = 0 := by
        rw [Int.toNat_natCast]
        exact Nat.log_of_lt ha
      rw [hlog]
      simp

/-- C9 counterexample: `FormatBytes 512 = "512 B"` — values below 1024 are
rendered as a bare integer with no two-decimal fraction (and with the plain
`"B"` unit, not a magnitude letter followed by `"B"`), so the claimed
formatting does not hold for every nonnegative byte count. -/
theorem format_bytes_small_values_no_decimals :
    FormatBytes 512 = "512 B" ∧ ("512 B".toList.contains '.') = false := by
  constructor
  · rfl
  · decide

/-- C9 (amended): for `0 ≤ b < 1024` (within int64 range) `FormatBytes`
renders the integer byte count followed by `" B"`, with no decimals; for
`1024 ≤ b < 2^63` it renders the value scaled by the largest power of 1024
not exceeding it, with two-decimal precision (ties to even over the exact
binary64 quotient) and a magnitude letter from `K,M,G,T,P,E` followed by
`"B"`. -/
theorem format_bytes_rendering (b : ℤ) (h0 : 0 ≤ b) (h1 : b < 2 ^ 63) :
    (b < 1024 → FormatBytes b = toString b ++ " B") ∧
    (1024 ≤ b → FormatBytes b = formatBytesTwoDec b ∧
      Nat.log 1024 b.toNat - 1 < 6) := by
  constructor
  · intro hlt
    unfold FormatBytes
    rw [if_pos hlt]
  · intro hge
    have hk1 : 1 ≤ Nat.log 1024 b.toNat :=
      Nat.log_pos (by norm_num) (by omega)
    have hk7 : Nat.log 1024 b.toNat < 7 := by
      apply Nat.log_lt_of_lt_pow (by omega)
      have : b.toNat < 2 ^ 63 := by omega
      calc b.toNat < 2 ^ 63 := this
        _ < 1024 ^ 7 := by norm_num
    refine ⟨?_, by omega⟩
    unfold FormatBytes
    rw [if_neg (by omega)]
    have htdiv : b.tdiv 1024 = ((b.toNat / 1024 : ℕ) : ℤ) := by
      obtain ⟨a, rfl⟩ : ∃ a : ℕ, b = (a : ℤ) := ⟨b.toNat, by omega⟩
      rw [Int.toNat_natCast]
      rfl
    have hloop := fbLoop_eq (b.tdiv 1024).toNat (b.tdiv 1024) 1024 0
      (by rw [htdiv]; positivity) le_rfl
    rw [hloop]
    dsimp only
    have hlogdiv : Nat.log 1024 ((b.tdiv 1024)).toNat = Nat.log 1024 b.toNat - 1 := by
      rw [htdiv, Int.toNat_natCast]
      exact Nat.log_div_base 1024 b.toNat
    rw [hlogdiv]
    unfold formatBytesTwoDec
    dsimp only
    have hpow : (1024 : ℤ) * 1024 ^ (Nat.log 1024 b.toNat - 1) =
        1024 ^ Nat.log 1024 b.toNat := by
      rw [← pow_succ']
      congr 1
      omega
    rw [hpow, Nat.zero_add]

/-- C9 witness: the amended rendering facts at `b = 1048576` (the claim's
own example value) and at `b = 512`. -/
theorem format_bytes_rendering_witness :
    (FormatBytes 1048576 = formatBytesTwoDec 1048576 ∧
      Nat.log 1024 (1048576 : ℤ).toNat - 1 < 6) ∧
    FormatBytes 512 = toString (512 : ℤ) ++ " B" :=
  ⟨(format_bytes_rendering 1048576 (by decide) (by decide)).2 (by decide),
   (format_bytes_rendering 512 (by decide) (by decide)).1 (by decide)⟩

end PprofAnalyzer
